import Mathlib

/-!
Verification development for the crossword-fill engine of `wordlai`
(`src/domain.py`).  The Python code is shallowly embedded: strings become
`List Char`, the mutable `Puzzle` object becomes a record threaded through
pure functions, Python `set`s become `Finset`s, and fallible operations
(`str.index`, list indexing, raised exceptions) return `Option`/`Except`.
Every definition mirrors the corresponding function of `src/domain.py`;
each doc comment names the source lines it embeds and notes any place where
the source as written would raise at runtime.
-/

set_option maxRecDepth 10000

namespace Wordlai

/-- The `empty_marker` of `Puzzle` (`domain.py` line 186). -/
def emptyMarker : Char := '-'

/-- The `filled_marker` of `Puzzle` (`domain.py` line 187). -/
def filledMarker : Char := '#'

/-- Python's `\w` word-character test restricted to the characters this
program manipulates (letters, digits, underscore).  Used by
`count_letters` (`domain.py` line 26). -/
def isWordChar (c : Char) : Bool := c.isAlphanum || c = '_'

/-- The decimal digit character for `n % 10`. -/
def digitChar (n : Nat) : Char :=
  match n % 10 with
  | 0 => '0' | 1 => '1' | 2 => '2' | 3 => '3' | 4 => '4'
  | 5 => '5' | 6 => '6' | 7 => '7' | 8 => '8' | _ => '9'

/-- Fuel-driven digit expansion (the fuel only bounds the recursion depth
and is always supplied large enough; `n / 10 < n` for `n ≥ 10`). -/
def digitsAux : Nat → Nat → List Char
  | 0, _ => []
  | fuel + 1, n => if n < 10 then [digitChar n] else digitsAux fuel (n / 10) ++ [digitChar n]

/-- Decimal digit characters of a natural number, most significant first;
models Python's `f"{i}"` rendering used in `f"[{i}]"` tags. -/
def digitsOf (n : Nat) : List Char := digitsAux (n + 1) n

/-- Stable insertion into a descending-by-key list: the inserted element
goes after every element of key `≥` its own, so equal keys keep their
original relative order — the semantics of Python's stable
`sort(key=..., reverse=True)`. -/
def insDesc (key : α → Nat) (x : α) : List α → List α
  | [] => [x]
  | y :: t => if key x ≤ key y then y :: insDesc key x t else x :: y :: t

/-- Python's stable descending sort (`list.sort(key=..., reverse=True)`,
`domain.py` line 179, and `sorted(..., key=..., reverse=True)`,
line 260). -/
def pySortDesc (key : α → Nat) (l : List α) : List α :=
  l.foldl (fun acc x => insDesc key x acc) []

/-- Numeric value of a decimal digit character; models `int(...)` on a
digit run (`domain.py` line 382). -/
def digitVal (c : Char) : Nat := c.toNat - 48

/-- Value of a digit string, models Python `int(match.group(1))`. -/
def dsToNat (ds : List Char) : Nat := ds.foldl (fun a c => 10 * a + digitVal c) 0

/-- `leadsList p l` is true when `p` is an initial segment of `l`
(substring matching helper for `str.index` / `str.find`). -/
def leadsList : List Char → List Char → Bool
  | [], _ => true
  | _ :: _, [] => false
  | a :: as, b :: bs => a = b && leadsList as bs

/-- First index at which `pat` occurs as a contiguous substring of `hay`;
models Python `str.index` (which raises when absent, hence `Option`). -/
def subIdx (hay pat : List Char) : Option Nat :=
  match hay with
  | [] => if leadsList pat [] then some 0 else none
  | c :: t =>
    if leadsList pat (c :: t) then some 0
    else (subIdx t pat).map (· + 1)

/-- First index `≥ start` holding character `c`; models Python
`str.find(c, start)` (`none` corresponds to the `-1` return). -/
def charFrom (l : List Char) (c : Char) (start : Nat) : Option Nat :=
  ((l.drop start).findIdx? (· = c)).map (start + ·)

/-- Python `range(a, b+1)` over integers, as used by `Word.span`
(`domain.py` lines 144 and 148): the inclusive interval `[a, b]`. -/
def intRange (a b : Int) : List Int :=
  (List.range (b + 1 - a).toNat).map (fun (i : Nat) => a + (i : Int))

/-- Python `str.split(sep)` for a one-character separator: every maximal
(possibly empty) chunk between separators, in order. -/
def splitOnChar (sep : Char) : List Char → List (List Char)
  | [] => [[]]
  | c :: cs =>
    if c = sep then [] :: splitOnChar sep cs
    else
      match splitOnChar sep cs with
      | [] => [[c]]
      | h :: t => (c :: h) :: t

/-- Like `splitOnChar` but pairing every chunk with its true start offset
within the scanned list (offset accumulator `i`).  The nonempty chunks are
exactly the maximal runs of non-separator characters together with their
actual positions — the specification-level reading of
`Puzzle._get_subpatterns`. -/
def splitOff (sep : Char) : List Char → Nat → List (List Char × Nat)
  | [], i => [([], i)]
  | c :: cs, i =>
    if c = sep then ([], i) :: splitOff sep cs (i + 1)
    else
      match splitOff sep cs (i + 1) with
      | [] => [([c], i)]
      | (h, _) :: t => ((c :: h), i) :: t

/-- The maximal contiguous non-`sep` runs of a line, each with its own
start offset (specification-level notion of "sub-pattern segments"). -/
def maxRuns (sep : Char) (s : List Char) : List (List Char × Nat) :=
  (splitOff sep s 0).filter (fun r => !r.1.isEmpty)

/-- Read cell `(r, c)` of the grid matrix (`self.grid[r][c]`).  Indices
used by the engine are always in range; the default only makes the
function total. -/
def gridGet (g : List (List Char)) (r c : Nat) : Char := (g.getD r []).getD c emptyMarker

/-- Write cell `(r, c)` of the grid matrix (`self.grid[r][c] = v`). -/
def gridSet (g : List (List Char)) (r c : Nat) (v : Char) : List (List Char) :=
  g.set r ((g.getD r []).set c v)

/-- `Location` (`domain.py` lines 101–103): an axis (0 = across rows,
1 = down columns) and a row/column index. -/
structure Location where
  direction : Nat
  index : Nat
deriving DecidableEq, Repr

/-- `Word` (`domain.py` lines 106–131).  `canonical` and `size` are set in
`__post_init__`; the placement fields start unset (`None`). -/
structure Word where
  word : List Char
  canonical : List Char
  clue : String
  row : Option Nat
  col : Option Nat
  direction : Option Nat
  size : Nat
deriving DecidableEq, Repr

/-- `Word.__init__` + `__post_init__` (`domain.py` lines 106–122):
`canonical = word.upper()`, `size = len(canonical)`. -/
def mkWord (w : List Char) (clue : String) : Word :=
  let canon := w.map Char.toUpper
  { word := w, canonical := canon, clue := clue
    row := none, col := none, direction := none, size := canon.length }

/-- `Word.set_position` (`domain.py` lines 124–131). -/
def Word.set_position (w : Word) (location : Location) (pos : Nat) : Word :=
  if location.direction = 1 then
    { w with direction := some location.direction, row := some pos, col := some location.index }
  else
    { w with direction := some location.direction, row := some location.index, col := some pos }

/-- `Word.span` (`domain.py` lines 137–148).  `padding = true` subtracts
one from the start only when the start coordinate is positive, and always
adds one to the end — the source never clamps the right end.  Arithmetic
is over `Int` exactly as Python's unbounded integers.  For a word whose
`direction` is unset the source returns `None`; that case (unreachable for
placed words) is rendered as `[]`. -/
def Word.span (w : Word) (padding : Bool) : List Int :=
  match w.direction with
  | some 0 =>
    let c : Int := (w.col.getD 0 : Nat)
    let start := c - (if padding && decide (c > 0) then 1 else 0)
    let e := c + (w.size : Int) - 1 + (if padding then 1 else 0)
    intRange start e
  | some 1 =>
    let r : Int := (w.row.getD 0 : Nat)
    let start := r - (if padding && decide (r > 0) then 1 else 0)
    let e := r + (w.size : Int) - 1 + (if padding then 1 else 0)
    intRange start e
  | _ => []

/-- `Word.letter_at` (`domain.py` lines 151–159). -/
def Word.letter_at (w : Word) (cell_row cell_col : Nat) : Option Char :=
  match w.direction, w.row, w.col with
  | some 0, some r, some c =>
    if cell_row = r ∧ c ≤ cell_col ∧ cell_col < c + w.size then
      w.canonical.getD (cell_col - c) emptyMarker
    else none
  | some 1, some r, some c =>
    if cell_col = c ∧ r ≤ cell_row ∧ cell_row < r + w.size then
      w.canonical.getD (cell_row - r) emptyMarker
    else none
  | _, _, _ => none

/-! ### Pattern codec (`count_letters`, `get_regex`, `gen_patterns`) -/

/-- `count_letters` (`domain.py` lines 21–30): number of `\w` characters
and the offsets of the first and last one.  `none` models the
`ValueError` raised when the strip holds no letter. -/
def countLetters (s : List Char) : Option (Nat × Nat × Nat) :=
  let ps := (List.range s.length).filter (fun i => isWordChar (s.getD i emptyMarker))
  match ps with
  | [] => none
  | p :: rest => some ((p :: rest).length, p, (p :: rest).getLast (by simp))

/-- One token of the regular expressions built by `get_regex`
(`domain.py` lines 33–65): a literal letter, `\w{n}` (exactly `n` word
characters), `\w{0,n}` (greedily up to `n` word characters), or the
index-tag wrapper `\[(\d+)\]`. -/
inductive RTok where
  | lit (c : Char)
  | wex (n : Nat)
  | wopt (n : Nat)
  | tag
deriving DecidableEq, Repr

/-- The body tokens accumulated by the `for i in range(firstc_pos,
lastc_pos + 1)` loop of `get_regex` (`domain.py` lines 49–57): empty
markers are counted and flushed as `\w{counter}` just before the next
literal letter. -/
def regexBody (s : List Char) (lo hi : Nat) : List RTok :=
  let step : (List RTok × Nat) → Char → (List RTok × Nat) := fun (acc, counter) c =>
    if c = emptyMarker then (acc, counter + 1)
    else if counter > 0 then (acc ++ [.wex counter, .lit c], 0)
    else (acc ++ [.lit c], 0)
  (((s.drop lo).take (hi + 1 - lo)).foldl step ([], 0)).1

/-- `get_regex` (`domain.py` lines 33–65) read as its token sequence: the
leading `\w{0,firstc_pos}` group when letters do not start the strip, the
body between first and last letter, and the trailing `\w{0,K}` group when
letters do not end it.  The surrounding `\[(\d+)\]` wrappers are supplied
by the match routine (`matchAt` below).  `none` models the `ValueError`
propagated from `count_letters`. -/
def getRegexToks (s : List Char) : Option (List RTok) :=
  match countLetters s with
  | none => none
  | some (_, firstc, lastc) =>
    let lead : List RTok := if firstc > 0 then [.wopt firstc] else []
    let trail : List RTok :=
      if lastc < s.length - 1 then [.wopt (s.length - 1 - lastc)] else []
    some (lead ++ regexBody s firstc lastc ++ trail)

/-- One element yielded by `gen_patterns`: the source yields
`(pattern_regex, pos)`; the underlying strip is carried alongside its
compiled token form so that specification statements can speak about the
sub-strip a pattern was generated from. -/
structure GenPat where
  strip : List Char
  toks : List RTok
  pos : Nat
deriving DecidableEq, Repr

/-- `gen_patterns` (`domain.py` lines 67–94), eagerly collected in yield
order: the full-strip expression first, then recursively the
right-trimmed strip `letter_seq[:last_char_pos-1]` at the same position,
then the left-trimmed strip `letter_seq[first_char_pos+2:]` at position
`pos + first_char_pos + 2`.  All calls use the default
`empty_marker='-'` (the source's recursive calls do not forward the
parameter).  `none` models the `ValueError` raised by `count_letters`
when a (sub-)strip holds no letter. -/
def genPatternsF : Nat → List Char → Nat → Nat → Option (List GenPat)
  | 0, _, _, _ => none
  | fuel + 1, seq, pos, min_size =>
    match countLetters seq with
    | none => none
    | some (nb_chars, first_char_pos, last_char_pos) =>
      if seq.length < min_size then some []
      else
        match getRegexToks seq with
        | none => none
        | some toks =>
          match (if nb_chars > 1 ∧ (seq.take (last_char_pos - 1)).length > 1 then
                  genPatternsF fuel (seq.take (last_char_pos - 1)) pos min_size
                else some []),
              (if nb_chars > 1 ∧ (seq.drop (first_char_pos + 2)).length > 1 then
                  genPatternsF fuel (seq.drop (first_char_pos + 2))
                    (pos + first_char_pos + 2) min_size
                else some []) with
          | some part1, some part2 => some (⟨seq, toks, pos⟩ :: part1 ++ part2)
          | _, _ => none

/-- `gen_patterns` with sufficient fuel: each recursive call of the
source strictly shrinks the strip, so `seq.length + 1` levels always
suffice (the genuinely exhausted-fuel branch is unreachable). -/
def gen_patterns (seq : List Char) (pos min_size : Nat) : Option (List GenPat) :=
  genPatternsF (seq.length + 1) seq pos min_size

/-! ### The match engine (`re.search` over the generated expressions)

The generated expressions all have the shape
`\[(\d+)\](body)\[(\d+)\]` where `body` is a sequence of literal
letters, `\w{n}` and `\w{0,n}` groups.  `matchToks` implements Python's
greedy backtracking semantics for that fragment; `matchAt` anchors a
match attempt at one position (returning the parsed group 1 tag and the
group 2 text); `reSearch` scans start positions left to right as
`re.search` does. -/

/-- Consume exactly `n` word characters (`\w{n}`). -/
def consumeW : Nat → List Char → Option (List Char × List Char)
  | 0, s => some ([], s)
  | _ + 1, [] => none
  | n + 1, c :: cs =>
    if isWordChar c then (consumeW n cs).map (fun p => (c :: p.1, p.2)) else none

/-- Maximal nonempty run of decimal digits (`(\d+)` followed by a
non-digit, which is how the generated patterns always use it). -/
def parseDigits : List Char → Option (List Char × List Char)
  | [] => none
  | c :: cs =>
    if c.isDigit then
      match parseDigits cs with
      | some (ds, rest) => some (c :: ds, rest)
      | none => some ([c], cs)
    else none

/-- Greedy backtracking matcher for a token list, driven by a fuel
counter that only bounds the recursion depth (`matchToks` below always
supplies enough).  Returns the characters captured for group 2 (the
`tag` token's characters are excluded — it only ever appears as the
final trailing wrapper) and the remaining input.  A `\w{0,n+1}` token
first tries its maximal consumption and on failure of the continuation
retries as `\w{0,n}` — Python's greedy backtracking. -/
def matchToksF : Nat → List RTok → List Char → Option (List Char × List Char)
  | 0, _, _ => none
  | _ + 1, [], s => some ([], s)
  | _ + 1, .lit _ :: _, [] => none
  | fuel + 1, .lit c :: ts, x :: xs =>
    if x = c then (matchToksF fuel ts xs).map (fun p => (x :: p.1, p.2)) else none
  | fuel + 1, .wex n :: ts, s =>
    match consumeW n s with
    | none => none
    | some (a, r) => (matchToksF fuel ts r).map (fun p => (a ++ p.1, p.2))
  | fuel + 1, .wopt 0 :: ts, s => matchToksF fuel ts s
  | fuel + 1, .wopt (n + 1) :: ts, s =>
    (match consumeW (n + 1) s with
     | some (a, r) =>
       match matchToksF fuel ts r with
       | some p => some (a ++ p.1, p.2)
       | none => matchToksF fuel (.wopt n :: ts) s
     | none => matchToksF fuel (.wopt n :: ts) s)
  | fuel + 1, .tag :: ts, s =>
    match s with
    | '[' :: s1 =>
      match parseDigits s1 with
      | none => none
      | some (_, s2) =>
        match s2 with
        | ']' :: s3 => matchToksF fuel ts s3
        | _ => none
    | _ => none

/-- A recursion-depth bound for `matchToksF`: one step per token plus
the backtracking retries of each `\w{0,n}`. -/
def patFuel (toks : List RTok) : Nat :=
  toks.length + (toks.map (fun t => match t with | .wopt n => n | _ => 0)).sum + 1

/-- The matcher with sufficient fuel. -/
def matchToks (toks : List RTok) (s : List Char) : Option (List Char × List Char) :=
  matchToksF (patFuel toks) toks s

/-- Attempt a match of the full expression `\[(\d+)\](body)\[(\d+)\]`
anchored at the head of `s`: leading tag, then the body followed by the
trailing tag (placed inside `matchToks` so that backtracking across the
body/tag boundary behaves as in Python's engine).  Returns
`(int(group(1)), group(2))` as `find_matches` extracts them
(`domain.py` lines 381–384). -/
def matchAt (toks : List RTok) : List Char → Option (Nat × List Char)
  | [] => none
  | c :: s1 =>
    if c = '[' then
      match parseDigits s1 with
      | none => none
      | some (ds, s2) =>
        match s2 with
        | [] => none
        | c2 :: s3 =>
          if c2 = ']' then
            match matchToks (toks ++ [.tag]) s3 with
            | some (body, _) => some (dsToNat ds, body)
            | none => none
          else none
    else none

/-- `re.search`: try each start position from the left, first hit wins
(at the empty suffix the final anchored attempt is the result itself). -/
def reSearch (toks : List RTok) : List Char → Option (Nat × List Char)
  | [] => matchAt toks []
  | c :: t =>
    match matchAt toks (c :: t) with
    | some r => some r
    | none => reSearch toks t

inductive PyErr where
  | typeError
  | valueError
deriving DecidableEq, Repr

deriving instance DecidableEq for Except

/-- `Puzzle.find_matches` (`domain.py` lines 370–384), abstracted over the
encoded word stream and minimum size it reads from `self`.  The source
iterates `self.gen_patterns(letter_seq)` — a method that does not exist;
the evident intent (module-level `gen_patterns` at the strip's own
offset 0 with the puzzle's `min_size_word`, cf. the test revision) is
modelled.  A `ValueError` escaping the generator (strip without letters)
is surfaced as `.error`; "no expression matches" is `.ok none`. -/
def findMatchesSeq (wordseq : List Char) (min_size : Nat) (letter_seq : List Char) :
    Except PyErr (Option (Nat × List Char)) :=
  match gen_patterns letter_seq 0 min_size with
  | none => .error .valueError
  | some pats => .ok (pats.findSome? (fun gp => reSearch gp.toks wordseq))

/-! ### The `Puzzle` state and its operations -/

/-- One `[index]WORD` segment of the encoded dictionary stream
(`domain.py` line 181: `f"[{i}]{w.canonical}"`). -/
def segChars (i : Nat) (w : List Char) : List Char :=
  '[' :: digitsOf i ++ ']' :: w

/-- The encoded dictionary stream of a list of `(index, canonical)`
segments: the concatenation of their `[index]WORD` renderings. -/
def encodeSegs (segs : List (Nat × List Char)) : List Char :=
  (segs.map (fun s => segChars s.1 s.2)).flatten

/-- The state of `Puzzle` (`domain.py` lines 162–194).  `placed_words` is
the insertion-ordered dict `Location → list[Word]`; the two index sets
are Python `set`s. -/
structure Puzzle where
  grid_size : Nat
  available_words : List Word
  min_size_word : Nat
  available_wordseq : List Char
  placed_words : List (Location × List Word)
  nb_placed_words : Nat
  grid : List (List Char)
  complete_indexes : Finset Location
  empty_indexes : Finset Location
deriving DecidableEq

/-- `self.placed_words.get(loc, [])` — dict lookup with default. -/
def placedAt (p : Puzzle) (loc : Location) : List Word :=
  match p.placed_words.find? (fun e => e.1 = loc) with
  | some e => e.2
  | none => []

/-- `self.placed_words.setdefault(loc, []).append(word)`
(`domain.py` line 415): append to the entry for `loc`, creating it (at
the end, as dict insertion order does) when absent. -/
def placedInsert : List (Location × List Word) → Location → Word → List (Location × List Word)
  | [], loc, w => [(loc, [w])]
  | e :: t, loc, w =>
    if e.1 = loc then (e.1, e.2 ++ [w]) :: t
    else e :: placedInsert t loc w

/-- `Puzzle.__init__` (`domain.py` lines 163–194): track the minimum word
length over the offered list, keep the words fitting the grid, sort them
by descending raw length (Python's stable sort), render the encoded
stream, and mark every line as empty. -/
def Puzzle.init (grid_size : Nat) (words : List (List Char × String)) : Puzzle :=
  let min_size_word := words.foldl
    (fun m w => if w.1.length < m then w.1.length else m) grid_size
  let kept := (words.filter (fun w => w.1.length ≤ grid_size)).map (fun w => mkWord w.1 w.2)
  let available_words := pySortDesc (fun w => w.word.length) kept
  { grid_size := grid_size
    available_words := available_words
    min_size_word := min_size_word
    available_wordseq := encodeSegs (available_words.enum.map (fun e => (e.1, e.2.canonical)))
    placed_words := []
    nb_placed_words := 0
    grid := List.replicate grid_size (List.replicate grid_size emptyMarker)
    complete_indexes := ∅
    empty_indexes :=
      (([0, 1].flatMap (fun d => (List.range grid_size).map (fun i => Location.mk d i)))).toFinset }

/-- The raw grid line read by `_get_entirepattern` before blocking
(`domain.py` lines 200–203): cell `c` of row `loc.index`, or cell `r` of
column `loc.index`. -/
def lineChar (p : Puzzle) (loc : Location) (i : Nat) : Char :=
  if loc.direction = 0 then gridGet p.grid loc.index i else gridGet p.grid i loc.index

/-- The `block_cells` list of `_get_entirepattern` (`domain.py` line
206): padded spans of the words placed on this very Location. -/
def blockCells (p : Puzzle) (loc : Location) : List Int :=
  (placedAt p loc).flatMap (fun w => w.span true)

/-- The `left_spans` list (`domain.py` lines 209–212). -/
def leftSpans (p : Puzzle) (loc : Location) : List Int :=
  if loc.index > 0 then
    (placedAt p ⟨loc.direction, loc.index - 1⟩).flatMap (fun w => w.span false)
  else []

/-- The `right_spans` list (`domain.py` lines 215–218). -/
def rightSpans (p : Puzzle) (loc : Location) : List Int :=
  if (loc.index : Int) < (p.grid_size : Int) - 1 then
    (placedAt p ⟨loc.direction, loc.index + 1⟩).flatMap (fun w => w.span false)
  else []

/-- One iteration of the `for cell_i in range(self.grid_size)` loop of
`_get_entirepattern` (`domain.py` lines 221–242): the final character of
cell `cell_i`.  The loop only ever writes `pattern[cell_i]` and reads
`pattern[cell_i]` and `self.grid`, so the iterations are independent. -/
def entireCell (p : Puzzle) (loc : Location) (cell_i : Nat) : Char :=
  if (cell_i : Int) ∈ blockCells p loc then filledMarker
  else if lineChar p loc cell_i = emptyMarker then
    if loc.direction = 1 then
      if loc.index ≥ 2 ∧ gridGet p.grid cell_i (loc.index - 1) ≠ emptyMarker then
        filledMarker
      else if (loc.index : Int) ≤ (p.grid_size : Int) - 3 ∧
          gridGet p.grid cell_i (loc.index + 1) ≠ emptyMarker then
        filledMarker
      else if (cell_i : Int) ∈ leftSpans p loc ∨ (cell_i : Int) ∈ rightSpans p loc then
        filledMarker
      else emptyMarker
    else
      if loc.index ≥ 2 ∧ gridGet p.grid (loc.index - 1) cell_i ≠ emptyMarker then
        filledMarker
      else if (loc.index : Int) ≤ (p.grid_size : Int) - 3 ∧
          gridGet p.grid (loc.index + 1) cell_i ≠ emptyMarker then
        filledMarker
      else if (cell_i : Int) ∈ leftSpans p loc ∨ (cell_i : Int) ∈ rightSpans p loc then
        filledMarker
      else emptyMarker
  else lineChar p loc cell_i

/-- `Puzzle._get_entirepattern` (`domain.py` lines 196–243): the axis
line with cells blocked by (a) the padded spans of words on this very
Location, (b) the unpadded spans of words on the two adjacent parallel
Locations (only over empty cells), and (c) the perpendicular-neighbour
rule for empty cells (a letter two lines over, axis-aligned).  The
source returns the strip in every case — there is no exception path in
this function. -/
def Puzzle.entirePattern (p : Puzzle) (loc : Location) : List Char :=
  (List.range p.grid_size).map (entireCell p loc)

/-- `Puzzle._get_subpatterns` (`domain.py` lines 246–260): split the
entire pattern on the filled marker, keep chunks of length **≥ 2** (a
hardcoded bound — not `min_size_word`), pair each chunk with
`entirepattern.index(s)` — the offset of the *first occurrence of the
chunk's text* in the line — and sort longest-first (stable). -/
def Puzzle.getSubpatterns (p : Puzzle) (loc : Location) : List (List Char × Nat) :=
  let entirepattern := p.entirePattern loc
  let letter_sequences :=
    ((splitOnChar filledMarker entirepattern).filter (fun s => 2 ≤ s.length)).map
      (fun s => (s, (subIdx entirepattern s).getD entirepattern.length))
  pySortDesc (fun s => s.1.length) letter_sequences

/-- `Puzzle._is_complete` (`domain.py` lines 357–367).  As written the
source compares `len(p)` — where `p` is the `(chunk, offset)` *tuple*,
so always 2 — against `len(self.min_size_word)`, which raises
`TypeError` because `min_size_word` is an `int`; its own docstring
("all subpatterns are too short to fit smallest word") and the test
revision (`_get_all_subpatterns(loc, puzzle.min_size_word)`) fix the
intent, modelled here: every chunk shorter than `min_size_word`. -/
def Puzzle.isComplete (p : Puzzle) (subpatterns : List (List Char × Nat)) : Bool :=
  if subpatterns.length = 0 then true
  else subpatterns.all (fun s => s.1.length < p.min_size_word)

/-- Lines 431–436 of `refresh_structures`: delete the `[word_index]`
segment from the stream — `s_index = wordseq.index(f'[{word_index}]')`
(raises when absent, hence `Option`), `e_index = wordseq.find('[',
s_index+1)` with `-1` meaning end of stream, then splice the two parts
around the segment. -/
def removeSeg (stream : List Char) (word_index : Nat) : Option (List Char) :=
  match subIdx stream ('[' :: digitsOf word_index ++ [']']) with
  | none => none
  | some s_index =>
    let e_index := (charFrom stream '[' (s_index + 1)).getD stream.length
    some (stream.take s_index ++ stream.drop e_index)

/-- The grid-write loop of `refresh_structures` (`domain.py` lines
425–429): letter `i` of the canonical form goes to cell `(loc.index,
pos+i)` for across words, `(pos+i, loc.index)` for down words. -/
def writeWord (g : List (List Char)) (w : Word) (loc : Location) (pos : Nat) :
    List (List Char) :=
  if loc.direction = 0 then
    (List.range w.size).foldl
      (fun g i => gridSet g loc.index (pos + i) (w.canonical.getD i emptyMarker)) g
  else
    (List.range w.size).foldl
      (fun g i => gridSet g (pos + i) loc.index (w.canonical.getD i emptyMarker)) g

/-- `Puzzle.refresh_structures` (`domain.py` lines 422–453): write the
word into the grid, drop its segment from the encoded stream, remove the
perpendicular lines covered by its unpadded span from `empty_indexes`,
and re-evaluate completeness of the placed Location and its two
neighbours.  `none` models the exception paths (`str.index` failure). -/
def Puzzle.refresh_structures (p : Puzzle) (word : Word) (word_index : Nat)
    (loc : Location) (pos : Nat) : Option Puzzle :=
  let g := writeWord p.grid word loc pos
  match removeSeg p.available_wordseq word_index with
  | none => none
  | some seq =>
    let emp := p.empty_indexes \
      ((word.span false).map (fun i => Location.mk (1 - loc.direction) i.toNat)).toFinset
    let p1 := { p with grid := g, available_wordseq := seq, empty_indexes := emp }
    let c1 :=
      if p1.isComplete (p1.getSubpatterns loc) then insert loc p1.complete_indexes
      else p1.complete_indexes
    let c2 :=
      if decide (loc.index > 0) &&
          p1.isComplete (p1.getSubpatterns ⟨loc.direction, loc.index - 1⟩) then
        insert (Location.mk loc.direction (loc.index - 1)) c1
      else c1
    let c3 :=
      if decide ((loc.index : Int) < (p.grid_size : Int) - 1) &&
          p1.isComplete (p1.getSubpatterns ⟨loc.direction, loc.index + 1⟩) then
        insert (Location.mk loc.direction (loc.index + 1)) c2
      else c2
    some { p1 with complete_indexes := c3 }

/-- `Puzzle.place_word` (`domain.py` lines 404–419): fetch the word by
its stable index in `available_words`, set its position, append it to
the Placement Index, bump the counter, refresh the derived structures.
`none` models the exception paths (index out of range, stream splice
failure). -/
def Puzzle.place_word (p : Puzzle) (word_index : Nat) (loc : Location) (pos : Nat) :
    Option Puzzle :=
  match p.available_words[word_index]? with
  | none => none
  | some w =>
    let word := w.set_position loc pos
    let p1 := { p with
      available_words := p.available_words.set word_index word
      placed_words := placedInsert p.placed_words loc word
      nb_placed_words := p.nb_placed_words + 1 }
    p1.refresh_structures word word_index loc pos

/-- `Puzzle.find_matches` (`domain.py` lines 370–384) on a puzzle state:
see `findMatchesSeq`. -/
def Puzzle.find_matches (p : Puzzle) (letter_seq : List Char) :
    Except PyErr (Option (Nat × List Char)) :=
  findMatchesSeq p.available_wordseq p.min_size_word letter_seq

/-- The outcome of `Puzzle.next_selection` (`domain.py` lines 313–347):
either one of the documented stop tuples `(-2 | -1 | -3, message)` or a
selected Location. -/
inductive Selection where
  | stop (code : Int) (msg : String)
  | loc (l : Location)
deriving DecidableEq, Repr

/-- `Puzzle.next_selection` (`domain.py` lines 313–347).  The first stop
condition (line 332) works and is modelled; every later line of the
method raises `TypeError` when reached: line 335 iterates the *integer*
`random.randint(0,1)`, lines 336–337 subscript the *sets*
`complete_indexes[d]` / `empty_indexes[d]`, and line 347 calls
`random.choice` on a *set*.  So whenever some word remains unplaced the
call crashes instead of returning a Location. -/
def Puzzle.next_selection (p : Puzzle) (currently_blocked : Finset Location) :
    Except PyErr Selection :=
  if p.nb_placed_words = p.available_words.length then
    .ok (.stop (-2) "Stop condition: no more words to select from")
  else
    .error .typeError

/-- One body iteration of the fill loop `Puzzle.fillout` for a selected
Location (`domain.py` lines 286–310), with the source's evident
call-signature slips repaired to their intent: `_get_subpatterns` is
called with the Location (line 287 passes two arguments), matching uses
`find_matches`, and the successful branch places word `word_n` on the
selected Location at offset `letter_seq[1]` — the sub-pattern's reported
start — exactly as lines 299–307 compute `(row, col)` from it.  The
in-source TODO (line 303: "revalidate the letter_seq[1] as word may not
start at beginning of letter_seq!!") is *not* repaired: no revalidation
happens, as in the source.  `none` models any raised exception. -/
def fill_step (p : Puzzle) (sel : Location) : Option Puzzle :=
  fillTry p sel (p.getSubpatterns sel)
where
  /-- the `for letter_seq in letter_seqs` loop with its `break` on the
  first match; an exhausted loop leaves the grid unchanged (the source
  then calls the nonexistent `mark_as_complete`). -/
  fillTry (p : Puzzle) (sel : Location) : List (List Char × Nat) → Option Puzzle
    | [] => some p
    | (s, posn) :: rest =>
      match p.find_matches s with
      | .error _ => none
      | .ok none => fillTry p sel rest
      | .ok (some (word_n, _)) => p.place_word word_n sel posn

/-! ### Specification-side notions and concrete scenarios -/

/-- The cells written by placing a word of size `size` on `loc` at
offset `pos`: the specification-level description of the grid writes of
`refresh_structures` (`domain.py` lines 425–429). -/
def onSpanCell (loc : Location) (pos size r c : Nat) : Prop :=
  if loc.direction = 0 then r = loc.index ∧ pos ≤ c ∧ c < pos + size
  else c = loc.index ∧ pos ≤ r ∧ r < pos + size

instance (loc : Location) (pos size r c : Nat) : Decidable (onSpanCell loc pos size r c) :=
  decidable_of_iff
    ((loc.direction = 0 ∧ r = loc.index ∧ pos ≤ c ∧ c < pos + size) ∨
      (¬loc.direction = 0 ∧ c = loc.index ∧ pos ≤ r ∧ r < pos + size))
    (by unfold onSpanCell; split <;> simp_all)

/-- A well-formed `grid_size × grid_size` cell matrix. -/
def WFGrid (p : Puzzle) : Prop :=
  p.grid.length = p.grid_size ∧ ∀ row ∈ p.grid, row.length = p.grid_size

instance (p : Puzzle) : Decidable (WFGrid p) :=
  decidable_of_iff
    (p.grid.length = p.grid_size ∧ ∀ row ∈ p.grid, row.length = p.grid_size)
    Iff.rfl

/-- The grid-consistency invariant the specification asserts for every
reachable state: each cell covered by a placed word holds that word's
letter (`letter_at`, `domain.py` lines 151–159). -/
def Consistent (p : Puzzle) : Prop :=
  ∀ e ∈ p.placed_words, ∀ w ∈ e.2, ∀ r c : Nat, r < p.grid_size → c < p.grid_size →
    ∀ ch, w.letter_at r c = some ch → gridGet p.grid r c = ch

/-- The claim-side invariant restricted to intersecting pairs: an across
word and a down word that share a cell agree on its letter. -/
def CrossConsistent (p : Puzzle) : Prop :=
  ∀ ea ∈ p.placed_words, ∀ ed ∈ p.placed_words, ∀ wa ∈ ea.2, ∀ wd ∈ ed.2,
    ∀ r c : Nat, ∀ cha chd,
      wa.letter_at r c = some cha → wd.letter_at r c = some chd → cha = chd

/-- Well-formed dictionary segments: pairwise distinct index tags and
purely alphabetic canonical words (as produced from the letter words the
engine is fed). -/
def WFSegs (segs : List (Nat × List Char)) : Prop :=
  (segs.map Prod.fst).Nodup ∧ ∀ s ∈ segs, ∀ c ∈ s.2, c.isAlpha

instance (segs : List (Nat × List Char)) : Decidable (WFSegs segs) :=
  decidable_of_iff
    ((segs.map Prod.fst).Nodup ∧ ∀ s ∈ segs, ∀ c ∈ s.2, c.isAlpha = true)
    Iff.rfl

/-- The word/clue list of the repository's own `test_domain.py`
(`test_puzzle`, lines 117–121). -/
def testWords : List (List Char × String) :=
  [("Word".data, ""), ("Wtesber".data, ""), ("Sorsdela".data, ""),
   ("Bada".data, ""), ("Ecolos".data, ""), ("MotsdesFa".data, ""),
   ("small".data, ""), ("Datavault".data, ""), ("Short".data, ""),
   ("Sm".data, ""), ("Tooooolonnnnnnnggg".data, "")]

/-- The 9×9 puzzle built from `testWords`. -/
def tp0 : Puzzle := Puzzle.init 9 testWords

/-- `tp0` after placing WORD (stable index 7) down column 3 from row 2 —
the first placement of `test_puzzle`. -/
def tp1 : Puzzle := (tp0.place_word 7 ⟨1, 3⟩ 2).getD tp0

/-- A 5×5 scenario: HELLO, OAK, AB (already in descending length). -/
def q0 : Puzzle := Puzzle.init 5 [("hello".data, ""), ("oak".data, ""), ("ab".data, "")]

/-- `q0` with HELLO (index 0) seeded across row 2 from column 0
(a `place_first_word` outcome, `domain.py` lines 386–402). -/
def q1 : Puzzle := (q0.place_word 0 ⟨0, 2⟩ 0).getD q0

/-- `q1` after one fill-loop iteration that selected column 4: the
engine matches OAK against the sub-pattern `--O--` and places it at the
sub-pattern's start. -/
def q2 : Puzzle := (fill_step q1 ⟨1, 4⟩).getD q1

/-! ### Helper lemmas -/

theorem mem_intRange {a b j : Int} : j ∈ intRange a b ↔ a ≤ j ∧ j ≤ b := by
  unfold intRange
  constructor
  · intro hj
    obtain ⟨i, hi, hij⟩ := List.mem_map.mp hj
    have hi' := List.mem_range.mp hi
    omega
  · intro h
    exact List.mem_map.mpr ⟨(j - a).toNat, List.mem_range.mpr (by omega), by omega⟩

theorem map_range_getD {α : Type} (f : Nat → α) (n i : Nat) (d : α) (h : i < n) :
    ((List.range n).map f).getD i d = f i := by
  rw [List.getD_eq_getElem?_getD, List.getElem?_map, List.getElem?_range h]
  rfl

theorem mem_placedAt {p : Puzzle} {loc : Location} {w : Word} (h : w ∈ placedAt p loc) :
    ∃ e ∈ p.placed_words, w ∈ e.2 := by
  unfold placedAt at h
  rcases hf : p.placed_words.find? (fun e => e.1 = loc) with _ | e
  · rw [hf] at h
    simp at h
  · rw [hf] at h
    exact ⟨e, List.mem_of_find?_eq_some hf, h⟩

theorem insDesc_perm {α : Type} (key : α → Nat) (x : α) (l : List α) :
    (insDesc key x l).Perm (x :: l) := by
  induction l with
  | nil => exact List.Perm.refl _
  | cons y t ih =>
    unfold insDesc
    split
    · exact (ih.cons y).trans (List.Perm.swap x y t)
    · exact List.Perm.refl _

theorem pySortDesc_perm {α : Type} (key : α → Nat) (l : List α) :
    (pySortDesc key l).Perm l := by
  have main : ∀ (l acc : List α),
      (l.foldl (fun acc x => insDesc key x acc) acc).Perm (acc ++ l) := by
    intro l
    induction l with
    | nil => intro acc; simp
    | cons x t ih =>
      intro acc
      have h1 := ih (insDesc key x acc)
      have h2 : (insDesc key x acc ++ t).Perm (acc ++ x :: t) :=
        ((insDesc_perm key x acc).append_right t).trans List.perm_middle.symm
      exact h1.trans h2
  simpa using main l []

theorem mem_insDesc {α : Type} {key : α → Nat} {x z : α} {l : List α} :
    z ∈ insDesc key x l ↔ z = x ∨ z ∈ l := by
  rw [(insDesc_perm key x l).mem_iff, List.mem_cons]

theorem insDesc_pairwise {α : Type} {key : α → Nat} {x : α} {l : List α}
    (h : l.Pairwise (fun a b => key b ≤ key a)) :
    (insDesc key x l).Pairwise (fun a b => key b ≤ key a) := by
  induction l with
  | nil => simp [insDesc]
  | cons y t ih =>
    rw [List.pairwise_cons] at h
    unfold insDesc
    split
    · rename_i hxy
      rw [List.pairwise_cons]
      refine ⟨?_, ih h.2⟩
      intro z hz
      rcases mem_insDesc.mp hz with rfl | hzt
      · exact hxy
      · exact h.1 z hzt
    · rename_i hxy
      rw [List.pairwise_cons]
      refine ⟨?_, List.pairwise_cons.mpr h⟩
      intro z hz
      rcases List.mem_cons.mp hz with rfl | hzt
      · omega
      · exact le_trans (h.1 z hzt) (by omega)

theorem pySortDesc_pairwise {α : Type} (key : α → Nat) (l : List α) :
    (pySortDesc key l).Pairwise (fun a b => key b ≤ key a) := by
  have main : ∀ (l acc : List α), acc.Pairwise (fun a b => key b ≤ key a) →
      (l.foldl (fun acc x => insDesc key x acc) acc).Pairwise (fun a b => key b ≤ key a) := by
    intro l
    induction l with
    | nil => intro acc h; simpa using h
    | cons x t ih => intro acc h; exact ih _ (insDesc_pairwise h)
  exact main l [] (by simp)

theorem gridGet_gridSet_ne (g : List (List Char)) (a b r c : Nat) (v : Char)
    (h : ¬(a = r ∧ b = c)) : gridGet (gridSet g a b v) r c = gridGet g r c := by
  unfold gridGet gridSet
  simp only [List.getD_eq_getElem?_getD]
  rcases eq_or_ne a r with rfl | hne
  · have hbc : b ≠ c := by tauto
    rw [List.getElem?_set, if_pos rfl]
    by_cases hlen : a < g.length
    · rw [if_pos hlen]
      simp only [Option.getD_some]
      rw [List.getElem?_set_ne hbc]
    · rw [if_neg hlen]
      have hnone : g[a]? = none := by
        rw [List.getElem?_eq_none_iff]
        omega
      rw [hnone]
  · rw [List.getElem?_set_ne hne]

theorem gridGet_gridSet_self (g : List (List Char)) (a b : Nat) (v : Char)
    (ha : a < g.length) (hb : b < (g.getD a []).length) :
    gridGet (gridSet g a b v) a b = v := by
  unfold gridGet gridSet
  simp only [List.getD_eq_getElem?_getD] at hb ⊢
  rw [List.getElem?_set, if_pos rfl, if_pos ha]
  simp only [Option.getD_some]
  rw [List.getElem?_set, if_pos rfl, if_pos hb]
  simp

theorem gridSet_length (g : List (List Char)) (a b : Nat) (v : Char) :
    (gridSet g a b v).length = g.length := by
  unfold gridSet
  exact List.length_set g a _

theorem gridSet_row_length (g : List (List Char)) (a b r : Nat) (v : Char) :
    ((gridSet g a b v).getD r []).length = (g.getD r []).length := by
  unfold gridSet
  simp only [List.getD_eq_getElem?_getD]
  rcases eq_or_ne a r with rfl | hne
  · rw [List.getElem?_set, if_pos rfl]
    by_cases hlen : a < g.length
    · rw [if_pos hlen]
      simp [List.length_set]
    · rw [if_neg hlen]
      have hnone : g[a]? = none := by
        rw [List.getElem?_eq_none_iff]
        omega
      rw [hnone]
  · rw [List.getElem?_set_ne hne]

/-- Frame property of the generic cell-writing fold: a cell written at
none of the `n` steps keeps its content. -/
theorem gridGet_foldl_gridSet_frame (f : Nat → Char) (ar ac : Nat → Nat) :
    ∀ (n : Nat) (g : List (List Char)) (r c : Nat),
      (∀ i, i < n → ¬(ar i = r ∧ ac i = c)) →
      gridGet ((List.range n).foldl (fun G i => gridSet G (ar i) (ac i) (f i)) g) r c
        = gridGet g r c := by
  intro n
  induction n with
  | zero => intro g r c _; rfl
  | succ n ih =>
    intro g r c h
    rw [List.range_succ, List.foldl_append, List.foldl_cons, List.foldl_nil]
    rw [gridGet_gridSet_ne _ _ _ _ _ _ (h n (by omega))]
    exact ih g r c (fun i hi => h i (by omega))

theorem foldl_gridSet_length (f : Nat → Char) (ar ac : Nat → Nat) :
    ∀ (n : Nat) (g : List (List Char)),
      ((List.range n).foldl (fun G i => gridSet G (ar i) (ac i) (f i)) g).length
        = g.length := by
  intro n
  induction n with
  | zero => intro g; rfl
  | succ n ih =>
    intro g
    rw [List.range_succ, List.foldl_append, List.foldl_cons, List.foldl_nil,
      gridSet_length, ih]

theorem foldl_gridSet_row_length (f : Nat → Char) (ar ac : Nat → Nat) :
    ∀ (n : Nat) (g : List (List Char)) (r : Nat),
      (((List.range n).foldl (fun G i => gridSet G (ar i) (ac i) (f i)) g).getD r []).length
        = ((g.getD r []).length) := by
  intro n
  induction n with
  | zero => intro g r; rfl
  | succ n ih =>
    intro g r
    rw [List.range_succ, List.foldl_append, List.foldl_cons, List.foldl_nil,
      gridSet_row_length, ih]

/-- Content property of the generic cell-writing fold: if the written
cells are pairwise distinct and in range, each holds its written value. -/
theorem gridGet_foldl_gridSet_at (f : Nat → Char) (ar ac : Nat → Nat) :
    ∀ (n : Nat) (g : List (List Char)),
      (∀ i j, i < n → j < n → i ≠ j → ¬(ar i = ar j ∧ ac i = ac j)) →
      ∀ j, j < n → ar j < g.length → ac j < (g.getD (ar j) []).length →
      gridGet ((List.range n).foldl (fun G i => gridSet G (ar i) (ac i) (f i)) g) (ar j) (ac j)
        = f j := by
  intro n
  induction n with
  | zero => intro g _ j hj; omega
  | succ n ih =>
    intro g hdist j hj hr hc
    rw [List.range_succ, List.foldl_append, List.foldl_cons, List.foldl_nil]
    rcases eq_or_ne j n with rfl | hjn
    · rw [gridGet_gridSet_self]
      · rw [foldl_gridSet_length]
        exact hr
      · rw [foldl_gridSet_row_length]
        exact hc
    · rw [gridGet_gridSet_ne _ _ _ _ _ _ ?_]
      · exact ih g (fun i j hi hj hij => hdist i j (by omega) (by omega) hij) j
          (by omega) hr hc
      · exact fun hcell => hdist n j (by omega) (by omega) (by omega) ⟨hcell.1, hcell.2⟩

theorem writeWord_frame (g : List (List Char)) (w : Word) (loc : Location) (pos : Nat)
    (r c : Nat) (h : ¬ onSpanCell loc pos w.size r c) :
    gridGet (writeWord g w loc pos) r c = gridGet g r c := by
  unfold writeWord
  by_cases hd : loc.direction = 0
  · rw [if_pos hd]
    refine gridGet_foldl_gridSet_frame (fun i => w.canonical.getD i emptyMarker)
      (fun _ => loc.index) (fun i => pos + i) w.size g r c ?_
    intro i hi hcell
    have h1 : loc.index = r := hcell.1
    have h2 : pos + i = c := hcell.2
    apply h
    unfold onSpanCell
    rw [if_pos hd]
    exact ⟨h1.symm, by omega, by omega⟩
  · rw [if_neg hd]
    refine gridGet_foldl_gridSet_frame (fun i => w.canonical.getD i emptyMarker)
      (fun i => pos + i) (fun _ => loc.index) w.size g r c ?_
    intro i hi hcell
    have h1 : pos + i = r := hcell.1
    have h2 : loc.index = c := hcell.2
    apply h
    unfold onSpanCell
    rw [if_neg hd]
    exact ⟨h2.symm, by omega, by omega⟩

theorem writeWord_letter_across (g : List (List Char)) (w : Word) (loc : Location)
    (pos i : Nat) (hd : loc.direction = 0) (hi : i < w.size)
    (hr : loc.index < g.length) (hc : pos + w.size ≤ (g.getD loc.index []).length) :
    gridGet (writeWord g w loc pos) loc.index (pos + i)
      = w.canonical.getD i emptyMarker := by
  unfold writeWord
  rw [if_pos hd]
  refine gridGet_foldl_gridSet_at (fun i => w.canonical.getD i emptyMarker)
    (fun _ => loc.index) (fun i => pos + i) w.size g ?_ i hi hr
    (by show pos + i < (g.getD loc.index []).length; omega)
  intro a b ha hb hab hcell
  have h2 : pos + a = pos + b := hcell.2
  exact hab (by omega)

theorem writeWord_letter_down (g : List (List Char)) (w : Word) (loc : Location)
    (pos i : Nat) (hd : ¬loc.direction = 0) (hi : i < w.size)
    (hr : pos + i < g.length) (hc : loc.index < (g.getD (pos + i) []).length) :
    gridGet (writeWord g w loc pos) (pos + i) loc.index
      = w.canonical.getD i emptyMarker := by
  unfold writeWord
  rw [if_neg hd]
  refine gridGet_foldl_gridSet_at (fun i => w.canonical.getD i emptyMarker)
    (fun i => pos + i) (fun _ => loc.index) w.size g ?_ i hi hr hc
  intro a b ha hb hab hcell
  have h1 : pos + a = pos + b := hcell.1
  exact hab (by omega)

theorem set_position_size (w : Word) (loc : Location) (pos : Nat) :
    (w.set_position loc pos).size = w.size := by
  unfold Word.set_position
  split <;> rfl

theorem set_position_canonical (w : Word) (loc : Location) (pos : Nat) :
    (w.set_position loc pos).canonical = w.canonical := by
  unfold Word.set_position
  split <;> rfl

theorem set_position_direction (w : Word) (loc : Location) (pos : Nat) :
    (w.set_position loc pos).direction = some loc.direction := by
  unfold Word.set_position
  split <;> rfl

/-- Structural consequences of a successful `place_word`: the resulting
grid is exactly the word written over the previous grid, and the
Placement Index gains the positioned word under `loc`. -/
theorem place_word_spec {p : Puzzle} {wi : Nat} {loc : Location} {pos : Nat}
    {w : Word} {p' : Puzzle}
    (hw : p.available_words[wi]? = some w)
    (hpl : p.place_word wi loc pos = some p') :
    p'.grid = writeWord p.grid (w.set_position loc pos) loc pos ∧
    p'.grid_size = p.grid_size ∧
    p'.placed_words = placedInsert p.placed_words loc (w.set_position loc pos) := by
  unfold Puzzle.place_word at hpl
  rw [hw] at hpl
  unfold Puzzle.refresh_structures at hpl
  rcases hrem : removeSeg p.available_wordseq wi with _ | seq
  · simp only [hrem] at hpl
    exact absurd hpl (by simp)
  · simp only [hrem, Option.some.injEq] at hpl
    subst hpl
    exact ⟨rfl, rfl, rfl⟩

/-! ### Claim theorems -/

/-- C1.  The claim asserts that every puzzle state reachable through the
fill loop keeps every grid cell consistent with every placed word.  The
code violates it: in the 5×5 scenario, HELLO is seeded across row 2 and
one fill-loop iteration on column 4 matches OAK against the sub-pattern
`--O--` (the match consumes zero leading wildcards, so OAK aligns with
the `O` of HELLO at row 2) but places it at the sub-pattern's *start*
offset 0 — the re-validation flagged by the source's own TODO
(`domain.py` line 303) never happens — overwriting HELLO's `O` at cell
(2,4) with OAK's `K`.  The reachable state `q2` therefore falsifies the
invariant. -/
theorem C1_fill_loop_overwrites_crossing_letter :
    q0.place_word 0 ⟨0, 2⟩ 0 = some q1 ∧ fill_step q1 ⟨1, 4⟩ = some q2 ∧
    gridGet q2.grid 2 4 = 'K' ∧ ¬ Consistent q2 := by
  refine ⟨by decide, by decide, by decide, ?_⟩
  intro h
  have hex : ∃ w ∈ placedAt q2 ⟨0, 2⟩, w.letter_at 2 4 = some 'O' := by decide
  obtain ⟨w, hwmem, hwl⟩ := hex
  obtain ⟨e, hemem, hwe⟩ := mem_placedAt hwmem
  have hco := h e hemem w hwe 2 4 (by decide) (by decide) 'O' hwl
  rw [show gridGet q2.grid 2 4 = 'K' from by decide] at hco
  exact absurd hco (by decide)

/-- C5 (counterexample).  The claim asserts `_get_entirepattern` fails
with `DegenerateLineError` on a fully empty or fully blocked line and
never returns normally there.  The source has no such exception: on the
fresh test puzzle every line is fully empty yet the strip `'---------'`
is returned, and after SORSDELA fills column 6 that column's pattern is
the fully blocked `'#########'`, also returned normally (the repo's own
test asserts both returns, `test_domain.py` lines 135 and 211). -/
theorem C5_entirepattern_counterexample :
    tp0.entirePattern ⟨0, 1⟩ = List.replicate 9 emptyMarker ∧
    (tp0.place_word 2 ⟨1, 6⟩ 0).map (fun p => p.entirePattern ⟨1, 6⟩)
      = some (List.replicate 9 filledMarker) := by
  constructor
  · decide
  · decide

/-- C5 (amended).  `_get_entirepattern` always returns normally: the
result is a strip of exactly `grid_size` cells, each either the blocked
marker or the underlying grid cell's content — including the fully
empty and fully blocked cases, which raise nothing. -/
theorem C5_entirepattern_amended (p : Puzzle) (loc : Location) :
    (p.entirePattern loc).length = p.grid_size ∧
    ∀ i : Nat, (p.entirePattern loc).getD i filledMarker = filledMarker ∨
      (p.entirePattern loc).getD i filledMarker = lineChar p loc i := by
  constructor
  · simp [Puzzle.entirePattern]
  · intro i
    by_cases hi : i < p.grid_size
    · rw [Puzzle.entirePattern, map_range_getD _ _ _ _ hi]
      unfold entireCell
      split
      · exact Or.inl rfl
      split
      · rename_i hempty
        split
        · split
          · exact Or.inl rfl
          split
          · exact Or.inl rfl
          split
          · exact Or.inl rfl
          · exact Or.inr hempty.symm
        · split
          · exact Or.inl rfl
          split
          · exact Or.inl rfl
          split
          · exact Or.inl rfl
          · exact Or.inr hempty.symm
      · exact Or.inr rfl
    · left
      have hnone : (p.entirePattern loc)[i]? = none := by
        rw [List.getElem?_eq_none_iff]
        simp only [Puzzle.entirePattern, List.length_map, List.length_range]
        omega
      rw [List.getD_eq_getElem?_getD, hnone]
      rfl

/-- C8.  `next_selection`'s first stop condition works: with every word
placed (here: none offered) it returns the documented
`(-2, 'no more words')` tuple.  But whenever a word remains unplaced the
method raises `TypeError` — line 335 iterates the integer
`random.randint(0,1)`, lines 336–337 subscript the sets
`complete_indexes[d]` / `empty_indexes[d]`, line 347 calls
`random.choice` on a set — instead of returning a Location from the
available set as the claim (and the method's own docstring,
`domain.py` lines 319–329) state. -/
theorem C8_next_selection_bug :
    (Puzzle.init 3 ([] : List (List Char × String))).next_selection ∅
      = .ok (.stop (-2) "Stop condition: no more words to select from") ∧
    tp0.next_selection ∅ = .error .typeError ∧
    tp0.nb_placed_words ≠ tp0.available_words.length := by
  refine ⟨by decide, by decide, by decide⟩

/-- C9 (counterexample).  The claim asserts the padded span never
contains an index at or beyond `grid_size`.  Placing WORD across row 2
at columns 5–8 of a 9×9 grid yields the padded span `[4,…,9]`, which
contains 9 = `grid_size`: the source pads the right end unconditionally
(`domain.py` line 143), clamping only the left end. -/
theorem C9_padded_span_counterexample :
    ((Puzzle.init 9 [("word".data, "")]).place_word 0 ⟨0, 2⟩ 5).map
        (fun p => (placedAt p ⟨0, 2⟩).map (fun w => w.span true))
      = some [[4, 5, 6, 7, 8, 9]] ∧
    (9 : Int) ∈ [(4 : Int), 5, 6, 7, 8, 9] ∧
    (Puzzle.init 9 [("word".data, "")]).grid_size = 9 := by
  refine ⟨by decide, by decide, by decide⟩

/-- C9 (amended).  The padded span of a positioned word starting at
offset `pos` is exactly the integer interval from `max (pos-1) 0` (one
cell of left padding, clamped at the grid's low edge) to `pos + size`
(one cell of right padding, *not* clamped): indices below 0 never occur,
but `pos + size` may equal `grid_size` when the word touches the far
edge. -/
theorem C9_padded_span_amended (wtext : List Char) (clue : String) (loc : Location)
    (pos : Nat) (hd : loc.direction = 0 ∨ loc.direction = 1) (j : Int) :
    j ∈ ((mkWord wtext clue).set_position loc pos).span true ↔
      (pos : Int) - 1 ≤ j ∧ 0 ≤ j ∧ j ≤ (pos : Int) + wtext.length := by
  have hsize : ((mkWord wtext clue).set_position loc pos).size = wtext.length := by
    rw [set_position_size]
    simp [mkWord]
  rcases hd with hd | hd
  · have hdir : ((mkWord wtext clue).set_position loc pos).direction = some 0 := by
      rw [set_position_direction, hd]
    have hcol : ((mkWord wtext clue).set_position loc pos).col = some pos := by
      simp [Word.set_position, hd]
    unfold Word.span
    rw [hdir, hsize, hcol]
    simp only [Option.getD_some, Bool.true_and, if_true]
    rw [mem_intRange]
    split
    · rename_i hcond
      simp only [decide_eq_true_eq] at hcond
      omega
    · rename_i hcond
      simp only [decide_eq_true_eq] at hcond
      omega
  · have hdir : ((mkWord wtext clue).set_position loc pos).direction = some 1 := by
      rw [set_position_direction, hd]
    have hrow : ((mkWord wtext clue).set_position loc pos).row = some pos := by
      simp [Word.set_position, hd]
    unfold Word.span
    rw [hdir, hsize, hrow]
    simp only [Option.getD_some, Bool.true_and, if_true]
    rw [mem_intRange]
    split
    · rename_i hcond
      simp only [decide_eq_true_eq] at hcond
      omega
    · rename_i hcond
      simp only [decide_eq_true_eq] at hcond
      omega

/-- Witness for `C9_padded_span_amended` at WORD, an across Location,
offset 5, index 9. -/
theorem C9_padded_span_amended_witness :
    ((Location.mk 0 2).direction = 0 ∨ (Location.mk 0 2).direction = 1) ∧
    ((9 : Int) ∈ ((mkWord "word".data "").set_position ⟨0, 2⟩ 5).span true ↔
      (5 : Int) - 1 ≤ 9 ∧ (0 : Int) ≤ 9 ∧ (9 : Int) ≤ (5 : Int) + ("word".data).length) :=
  ⟨Or.inl rfl, C9_padded_span_amended "word".data "" ⟨0, 2⟩ 5 (Or.inl rfl) 9⟩

/-- C10.  Frame property of placement: a successful `place_word` writes
only the cells of the placed word's occupied path along `loc`; every
other grid cell keeps its previous content exactly. -/
theorem C10_placement_frame (p : Puzzle) (wi : Nat) (loc : Location) (pos : Nat)
    (w : Word) (p' : Puzzle) (r c : Nat)
    (hw : p.available_words[wi]? = some w)
    (hpl : p.place_word wi loc pos = some p')
    (h : ¬ onSpanCell loc pos w.size r c) :
    gridGet p'.grid r c = gridGet p.grid r c := by
  obtain ⟨hg, -, -⟩ := place_word_spec hw hpl
  rw [hg]
  refine writeWord_frame p.grid (w.set_position loc pos) loc pos r c ?_
  rw [set_position_size]
  exact h

/-- Witness for `C10_placement_frame`: placing HELLO across row 2 of the
5×5 scenario leaves cell (0,0) untouched. -/
theorem C10_placement_frame_witness :
    gridGet q1.grid 0 0 = gridGet q0.grid 0 0 :=
  C10_placement_frame q0 0 ⟨0, 2⟩ 0 (mkWord "hello".data "") q1 0 0
    (by decide) (by decide) (by decide)

theorem find?_placedInsert_self (pw : List (Location × List Word)) (loc : Location)
    (w : Word) :
    (placedInsert pw loc w).find? (fun e => e.1 = loc)
      = some (loc, (match pw.find? (fun e => e.1 = loc) with
                    | some e => e.2
                    | none => []) ++ [w]) := by
  induction pw with
  | nil => simp [placedInsert, List.find?]
  | cons e t ih =>
    unfold placedInsert
    by_cases he : e.1 = loc
    · rw [if_pos he]
      simp [List.find?, he]
    · rw [if_neg he]
      simp [List.find?, he, ih]

theorem self_mem_placedAt {p' : Puzzle} {pw : List (Location × List Word)}
    {loc : Location} {w : Word} (hpw : p'.placed_words = placedInsert pw loc w) :
    w ∈ placedAt p' loc := by
  unfold placedAt
  rw [hpw, find?_placedInsert_self]
  simp

theorem set_position_span_mem (w : Word) (loc : Location) (pos i : Nat)
    (hd : loc.direction = 0 ∨ loc.direction = 1) (hi : i < w.size) :
    ((pos + i : Nat) : Int) ∈ (w.set_position loc pos).span true := by
  rcases hd with hd | hd
  · have hcol : (w.set_position loc pos).col = some pos := by
      simp [Word.set_position, hd]
    have hspan : (w.set_position loc pos).span true
        = intRange ((pos : Int) - (if true && decide ((pos : Int) > 0) then 1 else 0))
            ((pos : Int) + ((w.set_position loc pos).size : Int) - 1 + 1) := by
      unfold Word.span
      rw [set_position_direction, hd, hcol]
      simp
    rw [hspan, set_position_size, mem_intRange]
    constructor
    · split <;> omega
    · omega
  · have hrow : (w.set_position loc pos).row = some pos := by
      simp [Word.set_position, hd]
    have hspan : (w.set_position loc pos).span true
        = intRange ((pos : Int) - (if true && decide ((pos : Int) > 0) then 1 else 0))
            ((pos : Int) + ((w.set_position loc pos).size : Int) - 1 + 1) := by
      unfold Word.span
      rw [set_position_direction, hd, hrow]
      simp
    rw [hspan, set_position_size, mem_intRange]
    constructor
    · split <;> omega
    · omega

/-- C3 (counterexample).  The claim asserts that after placing a word,
`entire_pattern` for its own Location reproduces the word's letters at
offsets `pos..pos+size-1`.  Placing WORD down column 3 from row 2 (the
repo's own test scenario) yields the pattern `'-######--'` for that
column: the word's padded span is blocked with filled markers, so
position 2 holds `'#'`, not `'W'`. -/
theorem C3_roundtrip_counterexample :
    (tp0.place_word 7 ⟨1, 3⟩ 2).map
        (fun p => ((placedAt p ⟨1, 3⟩).map Word.canonical, p.entirePattern ⟨1, 3⟩))
      = some (["WORD".data], "-######--".data) ∧
    "-######--".data.getD 2 filledMarker ≠ 'W' := by
  refine ⟨by decide, by decide⟩

/-- C3 (amended).  The round-trip holds at the raw grid, not at
`entire_pattern`: after a successful placement each cell of the word's
path holds exactly the word's letter (read through `lineChar`, the raw
row/column the pattern computation starts from), while `entire_pattern`
for the word's own Location shows the *filled marker* at every one of
those offsets, because the word's own padded span is blocked
(`domain.py` lines 206 and 221–223). -/
theorem C3_roundtrip_amended (p : Puzzle) (wi : Nat) (loc : Location) (pos : Nat)
    (w : Word) (p' : Puzzle)
    (hw : p.available_words[wi]? = some w)
    (hpl : p.place_word wi loc pos = some p')
    (hd : loc.direction = 0 ∨ loc.direction = 1)
    (hwf : WFGrid p) (hidx : loc.index < p.grid_size)
    (hpos : pos + w.size ≤ p.grid_size) :
    ∀ i, i < w.size →
      lineChar p' loc (pos + i) = w.canonical.getD i emptyMarker ∧
      (p'.entirePattern loc).getD (pos + i) filledMarker = filledMarker := by
  obtain ⟨hg, hgs, hpw⟩ := place_word_spec hw hpl
  have hrowlen : ∀ r, r < p.grid_size → (p.grid.getD r []).length = p.grid_size := by
    intro r hr
    have hrl : r < p.grid.length := by
      rw [hwf.1]
      exact hr
    rw [List.getD_eq_getElem p.grid [] hrl]
    exact hwf.2 _ (List.getElem_mem hrl)
  intro i hi
  constructor
  · unfold lineChar
    rcases hd with hd0 | hd1
    · rw [if_pos hd0, hg]
      have h1 := writeWord_letter_across p.grid (w.set_position loc pos) loc pos i hd0
        (by rw [set_position_size]; exact hi)
        (by rw [hwf.1]; exact hidx)
        (by rw [set_position_size, hrowlen loc.index hidx]; omega)
      rw [set_position_canonical] at h1
      exact h1
    · rw [if_neg (by omega), hg]
      have h1 := writeWord_letter_down p.grid (w.set_position loc pos) loc pos i (by omega)
        (by rw [set_position_size]; exact hi)
        (by rw [hwf.1]; omega)
        (by rw [hrowlen (pos + i) (by omega)]; exact hidx)
      rw [set_position_canonical] at h1
      exact h1
  · have hlt : pos + i < p'.grid_size := by
      rw [hgs]
      omega
    rw [Puzzle.entirePattern, map_range_getD _ _ _ _ hlt]
    have hmem : ((pos + i : Nat) : Int) ∈ blockCells p' loc := by
      unfold blockCells
      refine List.mem_flatMap.mpr ⟨w.set_position loc pos, self_mem_placedAt hpw, ?_⟩
      exact set_position_span_mem w loc pos i
        (by rcases hd with h | h <;> [exact Or.inl h; exact Or.inr h]) hi
    unfold entireCell
    rw [if_pos hmem]

/-- Witness for `C3_roundtrip_amended` at the WORD placement of the test
scenario, offset 0. -/
theorem C3_roundtrip_amended_witness :
    WFGrid tp0 ∧
    (lineChar tp1 ⟨1, 3⟩ (2 + 0) = (mkWord "Word".data "").canonical.getD 0 emptyMarker ∧
      (tp1.entirePattern ⟨1, 3⟩).getD (2 + 0) filledMarker = filledMarker) :=
  ⟨by decide, C3_roundtrip_amended tp0 7 ⟨1, 3⟩ 2 (mkWord "Word".data "") tp1
    (by decide) (by decide) (Or.inr rfl) (by decide) (by decide) (by decide) 0 (by decide)⟩

/-- C6 (counterexample).  The claim asserts the expressions generated for
a strip come in order of decreasing underlying sub-strip length.  For the
strip `'--R----G--E'` the yield order of `gen_patterns` is the pre-order
`11, 9, 6, 5, 7, 5, 2`: the right-trim subtree (lengths 9, 6, 5) is
exhausted before the left-trim strip of length 7, so the sequence is not
sorted. -/
theorem C6_genpatterns_counterexample :
    (gen_patterns "--R----G--E".data 0 2).map (fun l => l.map (fun g => g.strip.length))
      = some [11, 9, 6, 5, 7, 5, 2] ∧
    ¬ List.Pairwise (fun a b : Nat => b ≤ a) [11, 9, 6, 5, 7, 5, 2] := by
  refine ⟨by decide, by decide⟩

/-- C4 (counterexample).  The claim asserts `_get_subpatterns` keeps only
segments of length ≥ `min_size` (the shortest remaining word's length)
and pairs each with its own absolute start offset.  Both parts fail:
with words MOTSDESFA and WORD (`min_size_word = 4`), after placing WORD
the column-3 pattern is `'-######--'` and the code returns the length-2
segment `('--', 7)`; and with OAK placed mid-column (pattern
`'--#####--'`) the two `'--'` runs sit at offsets 0 and 7 (per
`maxRuns`), yet the code returns `('--', 0)` twice, because
`entirepattern.index(s)` finds only the first occurrence of the
segment's text (`domain.py` line 257). -/
theorem C4_subpatterns_counterexample :
    ((Puzzle.init 9 [("MOTSDESFA".data, ""), ("WORD".data, "")]).place_word 1 ⟨1, 3⟩ 2).map
        (fun p => (p.getSubpatterns ⟨1, 3⟩, p.min_size_word))
      = some ([("--".data, 7)], 4) ∧
    ("--".data : List Char).length < 4 ∧
    ((Puzzle.init 9 [("DATAVAULT".data, ""), ("OAK".data, ""), ("SM".data, "")]).place_word
          1 ⟨1, 4⟩ 3).map
        (fun p => (p.getSubpatterns ⟨1, 4⟩, maxRuns filledMarker (p.entirePattern ⟨1, 4⟩)))
      = some ([("--".data, 0), ("--".data, 0)], [("--".data, 0), ("--".data, 7)]) := by
  refine ⟨by decide, by decide, by decide⟩

theorem init_available_words (gs : Nat) (ws : List (List Char × String)) :
    (Puzzle.init gs ws).available_words
      = pySortDesc (fun w => w.word.length)
          ((ws.filter (fun w => w.1.length ≤ gs)).map (fun w => mkWord w.1 w.2)) := rfl

/-- C2.  On construction: the retained words are exactly the candidates
whose raw text fits the grid (as a permutation — i.e. nothing else and
nothing missing), they are ordered by descending length, every retained
word fits, and the initial encoded stream is the concatenation of the
`[i]CANONICAL` segments over the sorted list in order (index `i` = the
position in the sorted, filtered list).  Words longer than `grid_size`
are absent from `available_words` and hence never enter the stream. -/
theorem C2_initial_dictionary_encoding (gs : Nat) (ws : List (List Char × String)) :
    ((Puzzle.init gs ws).available_words.map Word.word).Perm
        ((ws.filter (fun w => w.1.length ≤ gs)).map Prod.fst) ∧
    ((Puzzle.init gs ws).available_words.Pairwise
        (fun a b => b.word.length ≤ a.word.length)) ∧
    (∀ w ∈ (Puzzle.init gs ws).available_words, w.word.length ≤ gs) ∧
    (Puzzle.init gs ws).available_wordseq
      = encodeSegs ((Puzzle.init gs ws).available_words.enum.map
          (fun e => (e.1, e.2.canonical))) := by
  refine ⟨?_, ?_, ?_, rfl⟩
  · rw [init_available_words]
    refine ((pySortDesc_perm _ _).map Word.word).trans ?_
    rw [List.map_map]
    have heq : ((ws.filter (fun w => w.1.length ≤ gs)).map
          (Word.word ∘ fun w => mkWord w.1 w.2))
        = (ws.filter (fun w => w.1.length ≤ gs)).map Prod.fst := by
      apply List.map_congr_left
      intro a _
      rfl
    rw [heq]
  · rw [init_available_words]
    exact pySortDesc_pairwise _ _
  · intro w hw
    rw [init_available_words] at hw
    have hk := (pySortDesc_perm _ _).mem_iff.mp hw
    obtain ⟨v, hv, rfl⟩ := List.mem_map.mp hk
    have hf := List.mem_filter.mp hv
    exact of_decide_eq_true hf.2

theorem splitOff_map_fst (sep : Char) : ∀ (s : List Char) (i : Nat),
    (splitOff sep s i).map Prod.fst = splitOnChar sep s := by
  intro s
  induction s with
  | nil => intro i; rfl
  | cons c cs ih =>
    intro i
    unfold splitOff splitOnChar
    by_cases hc : c = sep
    · rw [if_pos hc, if_pos hc]
      simp [ih]
    · rw [if_neg hc, if_neg hc]
      have h := ih (i + 1)
      rcases hso : splitOff sep cs (i + 1) with _ | ⟨⟨h1, k⟩, t⟩
      · rw [hso] at h
        simp only [List.map_nil] at h
        rw [← h]
        rfl
      · rw [hso] at h
        rw [← h]
        simp

theorem splitOff_head_off (sep : Char) (s : List Char) (i : Nat) :
    ∃ h t, splitOff sep s i = (h, i) :: t := by
  cases s with
  | nil => exact ⟨[], [], rfl⟩
  | cons c cs =>
    unfold splitOff
    by_cases hc : c = sep
    · rw [if_pos hc]
      exact ⟨[], _, rfl⟩
    · rw [if_neg hc]
      rcases hso : splitOff sep cs (i + 1) with _ | ⟨⟨h1, k⟩, t⟩
      · exact ⟨[c], [], rfl⟩
      · exact ⟨c :: h1, t, rfl⟩

theorem splitOff_run (sep : Char) : ∀ (s : List Char) (i : Nat) (r : List Char × Nat),
    r ∈ splitOff sep s i →
    i ≤ r.2 ∧ leadsList r.1 (s.drop (r.2 - i)) = true ∧ sep ∉ r.1 := by
  intro s
  induction s with
  | nil =>
    intro i r hr
    simp only [splitOff, List.mem_singleton] at hr
    subst hr
    exact ⟨le_refl _, rfl, by simp⟩
  | cons c cs ih =>
    intro i r hr
    unfold splitOff at hr
    by_cases hc : c = sep
    · rw [if_pos hc] at hr
      rcases List.mem_cons.mp hr with rfl | hrt
      · exact ⟨le_refl _, rfl, by simp⟩
      · obtain ⟨h1, h2, h3⟩ := ih (i + 1) r hrt
        refine ⟨by omega, ?_, h3⟩
        have hdrop : (c :: cs).drop (r.2 - i) = cs.drop (r.2 - (i + 1)) := by
          have harith : r.2 - i = (r.2 - (i + 1)) + 1 := by omega
          rw [harith, List.drop_succ_cons]
        rw [hdrop]
        exact h2
    · rw [if_neg hc] at hr
      obtain ⟨hh, ht, hso⟩ := splitOff_head_off sep cs (i + 1)
      rw [hso] at hr
      rcases List.mem_cons.mp hr with rfl | hrt
      · have hmem : (hh, i + 1) ∈ splitOff sep cs (i + 1) := by
          rw [hso]
          exact List.mem_cons_self _ _
        obtain ⟨-, h2, h3⟩ := ih (i + 1) (hh, i + 1) hmem
        refine ⟨le_refl _, ?_, ?_⟩
        · simp only [Nat.sub_self, List.drop_zero] at h2 ⊢
          unfold leadsList
          simp [h2]
        · simp only [List.mem_cons, not_or]
          exact ⟨fun hsc => hc hsc.symm, h3⟩
      · obtain ⟨h1, h2, h3⟩ := ih (i + 1) r (by rw [hso]; exact List.mem_cons_of_mem _ hrt)
        refine ⟨by omega, ?_, h3⟩
        have hdrop : (c :: cs).drop (r.2 - i) = cs.drop (r.2 - (i + 1)) := by
          have harith : r.2 - i = (r.2 - (i + 1)) + 1 := by omega
          rw [harith, List.drop_succ_cons]
        rw [hdrop]
        exact h2

/-- C4 (amended).  `_get_subpatterns` returns, sorted longest-first
(stably), exactly the maximal contiguous non-blocked runs of the entire
pattern whose length is **at least 2** — a hardcoded bound, not
`min_size` — each paired with the offset of the *first occurrence of the
run's text* in the line (Python `str.index`), which coincides with the
run's own start offset only when no earlier identical text occurs.  The
`maxRuns` decomposition used on the right carries the true offsets: its
runs are separator-free, occur at their recorded offsets, and filtering
drops only the empty chunks between adjacent separators. -/
theorem C4_subpatterns_amended (p : Puzzle) (loc : Location) :
    p.getSubpatterns loc
      = pySortDesc (fun s => s.1.length)
          ((((maxRuns filledMarker (p.entirePattern loc)).map Prod.fst).filter
              (fun s => 2 ≤ s.length)).map
            (fun s => (s, (subIdx (p.entirePattern loc) s).getD
                (p.entirePattern loc).length))) ∧
    (p.getSubpatterns loc).Pairwise (fun a b => b.1.length ≤ a.1.length) ∧
    ∀ r ∈ maxRuns filledMarker (p.entirePattern loc),
      leadsList r.1 ((p.entirePattern loc).drop r.2) = true ∧
      filledMarker ∉ r.1 ∧ r.1 ≠ [] := by
  refine ⟨?_, ?_, ?_⟩
  · have hX : ((((splitOff filledMarker (p.entirePattern loc) 0).filter
          (fun r => !r.1.isEmpty)).map Prod.fst).filter (fun s => 2 ≤ s.length))
        = (splitOnChar filledMarker (p.entirePattern loc)).filter
            (fun s => 2 ≤ s.length) := by
      rw [List.filter_map, List.filter_filter,
        ← splitOff_map_fst filledMarker (p.entirePattern loc) 0, List.filter_map]
      apply congrArg (List.map Prod.fst)
      apply List.filter_congr
      intro a _
      by_cases h : 2 ≤ a.1.length
      · have hne : ¬ a.1.isEmpty := by
          rcases ha : a.1 with _ | _
          · rw [ha] at h
            simp at h
          · simp
        simp [Function.comp, h, hne]
      · simp [Function.comp, h]
    simp only [Puzzle.getSubpatterns, maxRuns]
    rw [hX]
  · unfold Puzzle.getSubpatterns
    exact pySortDesc_pairwise _ _
  · intro r hr
    unfold maxRuns at hr
    have hmem := List.mem_filter.mp hr
    obtain ⟨-, h2, h3⟩ := splitOff_run filledMarker (p.entirePattern loc) 0 r hmem.1
    refine ⟨by simpa using h2, h3, ?_⟩
    have := hmem.2
    simp only [Bool.not_eq_true'] at this
    exact fun hnil => by simp [hnil] at this

theorem countLetters_last_lt {s : List Char} {nb fi la : Nat}
    (h : countLetters s = some (nb, fi, la)) : la < s.length := by
  unfold countLetters at h
  rcases hps : (List.range s.length).filter
      (fun i => isWordChar (s.getD i emptyMarker)) with _ | ⟨p, rest⟩
  · rw [hps] at h
    simp at h
  · rw [hps] at h
    simp only [Option.some.injEq, Prod.mk.injEq] at h
    obtain ⟨-, -, hla⟩ := h
    have hall : ∀ x ∈ p :: rest, x < s.length := by
      intro x hx
      rw [← hps] at hx
      exact List.mem_range.mp (List.mem_filter.mp hx).1
    rw [← hla]
    exact hall _ (List.getLast_mem (by simp))

theorem genPatternsF_strip_le : ∀ (fuel : Nat) (seq : List Char) (pos m : Nat)
    (l : List GenPat), genPatternsF fuel seq pos m = some l →
    ∀ y ∈ l, y.strip.length ≤ seq.length := by
  intro fuel
  induction fuel with
  | zero =>
    intro seq pos m l h
    simp [genPatternsF] at h
  | succ fuel ih =>
    intro seq pos m l h y hy
    unfold genPatternsF at h
    rcases hcl : countLetters seq with _ | ⟨nb, fi, la⟩
    · simp only [hcl] at h
      exact Option.noConfusion h
    · simp only [hcl] at h
      by_cases hlen : seq.length < m
      · rw [if_pos hlen] at h
        simp only [Option.some.injEq] at h
        subst h
        simp at hy
      · rw [if_neg hlen] at h
        rcases hrt : getRegexToks seq with _ | toks
        · simp only [hrt] at h
          exact Option.noConfusion h
        · simp only [hrt] at h
          rcases hp1 : (if nb > 1 ∧ (seq.take (la - 1)).length > 1 then
              genPatternsF fuel (seq.take (la - 1)) pos m
            else some []) with _ | part1
          · simp only [hp1] at h
            exact Option.noConfusion h
          · rcases hp2 : (if nb > 1 ∧ (seq.drop (fi + 2)).length > 1 then
                genPatternsF fuel (seq.drop (fi + 2)) (pos + fi + 2) m
              else some []) with _ | part2
            · simp only [hp1, hp2] at h
              exact Option.noConfusion h
            · simp only [hp1, hp2, Option.some.injEq] at h
              subst h
              rcases List.mem_cons.mp hy with rfl | hy'
              · exact le_refl _
              rcases List.mem_append.mp hy' with hy1 | hy2
              · by_cases hc1 : nb > 1 ∧ (seq.take (la - 1)).length > 1
                · rw [if_pos hc1] at hp1
                  have hb := ih _ pos m part1 hp1 y hy1
                  have hle : (seq.take (la - 1)).length ≤ seq.length := by
                    rw [List.length_take]
                    omega
                  omega
                · rw [if_neg hc1] at hp1
                  simp only [Option.some.injEq] at hp1
                  subst hp1
                  simp at hy1
              · by_cases hc2 : nb > 1 ∧ (seq.drop (fi + 2)).length > 1
                · rw [if_pos hc2] at hp2
                  have hb := ih _ (pos + fi + 2) m part2 hp2 y hy2
                  have hle : (seq.drop (fi + 2)).length ≤ seq.length := by
                    rw [List.length_drop]
                    omega
                  omega
                · rw [if_neg hc2] at hp2
                  simp only [Option.some.injEq] at hp2
                  subst hp2
                  simp at hy2

/-- C6 (amended).  The first expression generated for a strip is the
full strip's own expression (the most constrained one), and every later
expression in the sequence comes from a strictly shorter sub-strip; but
the sequence is a pre-order traversal (full expression, then the whole
right-trim subtree, then the left-trim subtree) and is *not* globally
ordered by decreasing sub-strip length. -/
theorem C6_genpatterns_amended (seq : List Char) (pos m : Nat) (x : GenPat)
    (rest : List GenPat) (h : gen_patterns seq pos m = some (x :: rest)) :
    x.strip = seq ∧ x.pos = pos ∧ ∀ y ∈ rest, y.strip.length < seq.length := by
  unfold gen_patterns genPatternsF at h
  rcases hcl : countLetters seq with _ | ⟨nb, fi, la⟩
  · simp only [hcl] at h
    exact Option.noConfusion h
  · simp only [hcl] at h
    have hla := countLetters_last_lt hcl
    by_cases hlen : seq.length < m
    · rw [if_pos hlen] at h
      simp at h
    · rw [if_neg hlen] at h
      rcases hrt : getRegexToks seq with _ | toks
      · simp only [hrt] at h
        exact Option.noConfusion h
      · simp only [hrt] at h
        rcases hp1 : (if nb > 1 ∧ (seq.take (la - 1)).length > 1 then
            genPatternsF seq.length (seq.take (la - 1)) pos m
          else some []) with _ | part1
        · simp only [hp1] at h
          exact Option.noConfusion h
        · rcases hp2 : (if nb > 1 ∧ (seq.drop (fi + 2)).length > 1 then
              genPatternsF seq.length (seq.drop (fi + 2)) (pos + fi + 2) m
            else some []) with _ | part2
          · simp only [hp1, hp2] at h
            exact Option.noConfusion h
          · simp only [hp1, hp2] at h
            injection h with h2
            injection h2 with hx hrest
            refine ⟨by rw [← hx], by rw [← hx], ?_⟩
            intro y hy
            rw [← hrest] at hy
            rcases List.mem_append.mp hy with hy1 | hy2
            · by_cases hc1 : nb > 1 ∧ (seq.take (la - 1)).length > 1
              · rw [if_pos hc1] at hp1
                have hb := genPatternsF_strip_le _ _ _ _ _ hp1 y hy1
                have hle : (seq.take (la - 1)).length ≤ la - 1 := by
                  rw [List.length_take]
                  omega
                omega
              · rw [if_neg hc1] at hp1
                simp only [pure, Option.some.injEq] at hp1
                subst hp1
                simp at hy1
            · by_cases hc2 : nb > 1 ∧ (seq.drop (fi + 2)).length > 1
              · rw [if_pos hc2] at hp2
                have hb := genPatternsF_strip_le _ _ _ _ _ hp2 y hy2
                have hle : (seq.drop (fi + 2)).length ≤ seq.length - (fi + 2) := by
                  rw [List.length_drop]
                omega
              · rw [if_neg hc2] at hp2
                simp only [pure, Option.some.injEq] at hp2
                subst hp2
                simp at hy2

/-- Witness for `C6_genpatterns_amended` at the strip `'--R----G--E'`. -/
theorem C6_genpatterns_amended_witness :
    (((gen_patterns "--R----G--E".data 0 2).getD []).headD ⟨[], [], 0⟩).strip
        = "--R----G--E".data ∧
    (((gen_patterns "--R----G--E".data 0 2).getD []).headD ⟨[], [], 0⟩).pos = 0 ∧
    ∀ y ∈ ((gen_patterns "--R----G--E".data 0 2).getD []).tail,
      y.strip.length < ("--R----G--E".data).length :=
  C6_genpatterns_amended "--R----G--E".data 0 2
    (((gen_patterns "--R----G--E".data 0 2).getD []).headD ⟨[], [], 0⟩)
    ((gen_patterns "--R----G--E".data 0 2).getD []).tail (by decide)

theorem digitVal_digitChar (n : Nat) : digitVal (digitChar n) = n % 10 := by
  unfold digitChar digitVal
  have h : n % 10 < 10 := Nat.mod_lt _ (by omega)
  set k := n % 10 with hk
  interval_cases k <;> decide

theorem digitChar_isDigit (n : Nat) : (digitChar n).isDigit = true := by
  unfold digitChar
  have h : n % 10 < 10 := Nat.mod_lt _ (by omega)
  set k := n % 10 with hk
  interval_cases k <;> decide

theorem digitsOf_ne_nil (n : Nat) : digitsOf n ≠ [] := by
  unfold digitsOf digitsAux
  split
  · simp
  · simp

theorem digitsAux_digits : ∀ (fuel n : Nat), ∀ c ∈ digitsAux fuel n, c.isDigit = true := by
  intro fuel
  induction fuel with
  | zero => intro n c hc; simp [digitsAux] at hc
  | succ f ih =>
    intro n c hc
    unfold digitsAux at hc
    split at hc
    · simp only [List.mem_singleton] at hc
      subst hc
      exact digitChar_isDigit n
    · rcases List.mem_append.mp hc with h1 | h2
      · exact ih (n / 10) c h1
      · simp only [List.mem_singleton] at h2
        subst h2
        exact digitChar_isDigit n

theorem digitsOf_digits (n : Nat) : ∀ c ∈ digitsOf n, c.isDigit = true :=
  digitsAux_digits (n + 1) n

theorem dsToNat_append (a : List Char) (c : Char) :
    dsToNat (a ++ [c]) = 10 * dsToNat a + digitVal c := by
  unfold dsToNat
  rw [List.foldl_append]
  rfl

theorem dsToNat_digitsAux : ∀ (fuel n : Nat), n < fuel →
    dsToNat (digitsAux fuel n) = n := by
  intro fuel
  induction fuel with
  | zero => intro n h; omega
  | succ f ih =>
    intro n h
    unfold digitsAux
    split
    · rename_i h10
      show dsToNat [digitChar n] = n
      unfold dsToNat
      simp only [List.foldl_cons, List.foldl_nil]
      rw [digitVal_digitChar]
      omega
    · rename_i h10
      rw [dsToNat_append, ih (n / 10) (by omega), digitVal_digitChar]
      omega

theorem dsToNat_digitsOf (n : Nat) : dsToNat (digitsOf n) = n :=
  dsToNat_digitsAux (n + 1) n (by omega)

theorem digitsOf_inj {a b : Nat} (h : digitsOf a = digitsOf b) : a = b := by
  have h2 := congrArg dsToNat h
  rwa [dsToNat_digitsOf, dsToNat_digitsOf] at h2

theorem isDigit_ne_lbracket {c : Char} (h : c.isDigit = true) : c ≠ '[' := by
  intro he
  rw [he] at h
  exact absurd h (by decide)

theorem isDigit_ne_rbracket {c : Char} (h : c.isDigit = true) : c ≠ ']' := by
  intro he
  rw [he] at h
  exact absurd h (by decide)

theorem isAlpha_ne_lbracket {c : Char} (h : c.isAlpha = true) : c ≠ '[' := by
  intro he
  rw [he] at h
  exact absurd h (by decide)

theorem parseDigits_spec : ∀ (l ds rest : List Char), parseDigits l = some (ds, rest) →
    l = ds ++ rest ∧ ds ≠ [] ∧ ∀ c ∈ ds, c.isDigit = true := by
  intro l
  induction l with
  | nil => intro ds rest h; simp [parseDigits] at h
  | cons c cs ih =>
    intro ds rest h
    unfold parseDigits at h
    by_cases hc : c.isDigit = true
    · rw [if_pos hc] at h
      rcases hp : parseDigits cs with _ | ⟨ds', rest'⟩
      · rw [hp] at h
        simp only [Option.some.injEq, Prod.mk.injEq] at h
        obtain ⟨h1, h2⟩ := h
        subst h1
        subst h2
        refine ⟨rfl, by simp, ?_⟩
        intro x hx
        simp only [List.mem_singleton] at hx
        subst hx
        exact hc
      · rw [hp] at h
        simp only [Option.some.injEq, Prod.mk.injEq] at h
        obtain ⟨h1, h2⟩ := h
        subst h1
        subst h2
        obtain ⟨ha, -, hd⟩ := ih ds' rest' hp
        refine ⟨by rw [ha]; rfl, by simp, ?_⟩
        intro x hx
        rcases List.mem_cons.mp hx with rfl | hx'
        · exact hc
        · exact hd x hx'
    · rw [if_neg hc] at h
      exact absurd h (by simp)

theorem leadsList_append_self (p t : List Char) : leadsList p (p ++ t) = true := by
  induction p with
  | nil => rfl
  | cons c cs ih => simp [leadsList, ih]

theorem leadsList_cons_ne {p l : List Char} {c x : Char} (h : c ≠ x) :
    leadsList (c :: p) (x :: l) = false := by
  simp [leadsList, h]

theorem subIdx_cons (c : Char) (t pat : List Char) :
    subIdx (c :: t) pat =
      if leadsList pat (c :: t) then some 0 else (subIdx t pat).map (· + 1) := rfl

theorem subIdx_head {hay pat : List Char} (h : leadsList pat hay = true) :
    subIdx hay pat = some 0 := by
  cases hay with
  | nil => show (if leadsList pat [] then some 0 else none) = some 0; rw [if_pos h]
  | cons c t => rw [subIdx_cons, if_pos h]

theorem subIdx_append_shift : ∀ (a b pat : List Char),
    (∀ i, i < a.length → leadsList pat ((a ++ b).drop i) = false) →
    subIdx (a ++ b) pat = (subIdx b pat).map (· + a.length) := by
  intro a
  induction a with
  | nil =>
    intro b pat _
    simp only [List.nil_append, List.length_nil]
    cases subIdx b pat <;> simp
  | cons c t ih =>
    intro b pat hno
    have h0 := hno 0 (by simp)
    simp only [List.cons_append, List.drop_zero] at h0
    rw [List.cons_append, subIdx_cons, if_neg (by simp [h0])]
    rw [ih b pat (fun i hi => by
      have h1 := hno (i + 1) (by simp only [List.length_cons]; omega)
      simpa using h1)]
    cases subIdx b pat with
    | none => rfl
    | some v =>
      show some (v + t.length + 1) = some (v + (c :: t).length)
      exact congrArg some (by simp only [List.length_cons]; omega)

theorem charFrom_append (a b : List Char) (c : Char) (m : Nat) :
    charFrom (a ++ b) c (a.length + m) = (charFrom b c m).map (· + a.length) := by
  unfold charFrom
  rw [List.drop_append]
  rcases h : (b.drop m).findIdx? (· = c) with _ | v
  · rfl
  · show some (a.length + m + v) = some (m + v + a.length)
    exact congrArg some (by omega)

theorem encodeSegs_cons (j : Nat) (w : List Char) (rest : List (Nat × List Char)) :
    encodeSegs ((j, w) :: rest) = segChars j w ++ encodeSegs rest := by
  simp [encodeSegs]

theorem segChars_eq (j : Nat) (w : List Char) :
    segChars j w = '[' :: (digitsOf j ++ ']' :: w) := by
  simp [segChars]

theorem seg_body_ne_lbracket {j : Nat} {w : List Char}
    (hw : ∀ c ∈ w, c.isAlpha = true) :
    ∀ c ∈ digitsOf j ++ ']' :: w, c ≠ '[' := by
  intro c hc
  rcases List.mem_append.mp hc with h1 | h2
  · exact isDigit_ne_lbracket (digitsOf_digits j c h1)
  · rcases List.mem_cons.mp h2 with rfl | h3
    · decide
    · exact isAlpha_ne_lbracket (hw c h3)

theorem digit_tag_eq : ∀ (dk dj X Y : List Char),
    (∀ c ∈ dk, c.isDigit = true) → (∀ c ∈ dj, c.isDigit = true) →
    dk ++ ']' :: X = dj ++ ']' :: Y → dk = dj := by
  intro dk
  induction dk with
  | nil =>
    intro dj X Y _ hdj h
    cases dj with
    | nil => rfl
    | cons d djs =>
      exfalso
      simp only [List.nil_append, List.cons_append] at h
      injection h with h1 h2
      have hd := hdj d (List.mem_cons_self _ _)
      rw [← h1] at hd
      exact absurd hd (by decide)
  | cons c cks ih =>
    intro dj X Y hdk hdj h
    cases dj with
    | nil =>
      exfalso
      simp only [List.cons_append, List.nil_append] at h
      injection h with h1 h2
      have hc := hdk c (List.mem_cons_self _ _)
      rw [h1] at hc
      exact absurd hc (by decide)
    | cons d djs =>
      simp only [List.cons_append] at h
      injection h with h1 h2
      rw [h1, ih djs X Y (fun x hx => hdk x (List.mem_cons_of_mem _ hx))
        (fun x hx => hdj x (List.mem_cons_of_mem _ hx)) h2]

theorem digit_tag_leads : ∀ (dk dj t : List Char),
    (∀ c ∈ dk, c.isDigit = true) → (∀ c ∈ dj, c.isDigit = true) →
    leadsList (dk ++ [']']) (dj ++ ']' :: t) = true → dk = dj := by
  intro dk
  induction dk with
  | nil =>
    intro dj t _ hdj h
    cases dj with
    | nil => rfl
    | cons d djs =>
      exfalso
      simp only [List.nil_append, List.cons_append, leadsList, Bool.and_eq_true,
        decide_eq_true_eq] at h
      have hd := hdj d (List.mem_cons_self _ _)
      rw [← h.1] at hd
      exact absurd hd (by decide)
  | cons c cks ih =>
    intro dj t hdk hdj h
    cases dj with
    | nil =>
      exfalso
      simp only [List.cons_append, List.nil_append, leadsList, Bool.and_eq_true,
        decide_eq_true_eq] at h
      have hc := hdk c (List.mem_cons_self _ _)
      rw [h.1] at hc
      exact absurd hc (by decide)
    | cons d djs =>
      simp only [List.cons_append, leadsList, Bool.and_eq_true, decide_eq_true_eq] at h
      rw [h.1, ih djs t (fun x hx => hdk x (List.mem_cons_of_mem _ hx))
        (fun x hx => hdj x (List.mem_cons_of_mem _ hx)) h.2]

theorem tag_occurrence : ∀ (segs : List (Nat × List Char)),
    (∀ s ∈ segs, ∀ c ∈ s.2, c.isAlpha = true) →
    ∀ (i : Nat) (ds rest : List Char),
    (encodeSegs segs).drop i = '[' :: (ds ++ ']' :: rest) →
    (∀ c ∈ ds, c.isDigit = true) →
    ∃ e ∈ segs, ds = digitsOf e.1 := by
  intro segs
  induction segs with
  | nil =>
    intro _ i ds rest h _
    simp [encodeSegs] at h
  | cons e rest2 ih =>
    intro halpha i ds rest h hds
    obtain ⟨j, w⟩ := e
    rw [encodeSegs_cons] at h
    have hw : ∀ c ∈ w, c.isAlpha = true := halpha (j, w) (List.mem_cons_self _ _)
    by_cases hilen : i < (segChars j w).length
    · rcases Nat.eq_zero_or_pos i with rfl | hpos
      · rw [List.drop_zero, segChars_eq, List.cons_append] at h
        injection h with h1 h2
        rw [List.append_assoc, List.cons_append] at h2
        exact ⟨(j, w), List.mem_cons_self _ _,
          digit_tag_eq ds (digitsOf j) rest (w ++ encodeSegs rest2) hds
            (digitsOf_digits j) h2.symm⟩
      · exfalso
        rcases i with _ | i'
        · omega
        have hi0 : i' + 1 - (segChars j w).length = 0 := by omega
        rw [List.drop_append_eq_append_drop, hi0, List.drop_zero, segChars_eq,
          List.drop_succ_cons] at h
        have hbl : i' < (digitsOf j ++ ']' :: w).length := by
          rw [segChars_eq, List.length_cons] at hilen
          omega
        rw [List.drop_eq_getElem_cons hbl, List.cons_append] at h
        injection h with h1 h2
        exact seg_body_ne_lbracket hw _ (List.getElem_mem hbl) h1
    · have hged : (segChars j w).drop i = [] := List.drop_eq_nil_of_le (by omega)
      rw [List.drop_append_eq_append_drop, hged, List.nil_append] at h
      obtain ⟨e', he', hds'⟩ := ih (fun s hs => halpha s (List.mem_cons_of_mem _ hs))
        (i - (segChars j w).length) ds rest h hds
      exact ⟨e', List.mem_cons_of_mem _ he', hds'⟩

theorem findIdx?_shift {p : Char → Bool} : ∀ (a : List Char),
    (∀ x ∈ a, p x = false) → ∀ b,
    (a ++ b).findIdx? p = (b.findIdx? p).map (· + a.length) := by
  intro a
  induction a with
  | nil =>
    intro _ b
    simp only [List.nil_append, List.length_nil]
    cases b.findIdx? p <;> simp
  | cons c t ih =>
    intro ha b
    rw [List.cons_append, List.findIdx?_cons,
      if_neg (by simp [ha c (List.mem_cons_self _ _)])]
    rw [List.findIdx?_succ]
    rw [ih (fun x hx => ha x (List.mem_cons_of_mem _ hx)) b]
    cases b.findIdx? p with
    | none => rfl
    | some v =>
      show some (v + t.length + 1) = some (v + (c :: t).length)
      exact congrArg some (by simp only [List.length_cons]; omega)

theorem removeSeg_eq {stream : List Char} {k s : Nat}
    (h : subIdx stream ('[' :: digitsOf k ++ [']']) = some s) :
    removeSeg stream k =
      some (stream.take s ++
        stream.drop ((charFrom stream '[' (s + 1)).getD stream.length)) := by
  unfold removeSeg
  rw [h]

theorem removeSeg_some_subIdx {stream : List Char} {k : Nat} {out : List Char}
    (h : removeSeg stream k = some out) :
    ∃ s, subIdx stream ('[' :: digitsOf k ++ [']']) = some s := by
  unfold removeSeg at h
  rcases hs : subIdx stream ('[' :: digitsOf k ++ [']']) with _ | s
  · rw [hs] at h
    exact absurd h (by simp)
  · exact ⟨s, rfl⟩

theorem removeSeg_encode : ∀ (segs : List (Nat × List Char)) (k : Nat) (w : List Char),
    WFSegs segs → (k, w) ∈ segs →
    removeSeg (encodeSegs segs) k =
      some (encodeSegs (segs.filter (fun s => s.1 ≠ k))) := by
  intro segs
  induction segs with
  | nil => intro k w _ hk; simp at hk
  | cons e rest ih =>
    intro k w hwf hk
    obtain ⟨j, wj⟩ := e
    have hwj : ∀ c ∈ wj, c.isAlpha = true := hwf.2 (j, wj) (List.mem_cons_self _ _)
    rw [encodeSegs_cons]
    by_cases hjk : j = k
    · subst hjk
      have hnod : ∀ s ∈ rest, s.1 ≠ j := by
        have hn := hwf.1
        simp only [List.map_cons, List.nodup_cons] at hn
        intro s hs he
        apply hn.1
        rw [← he]
        exact List.mem_map_of_mem Prod.fst hs
      have hfil : rest.filter (fun s => s.1 ≠ j) = rest := by
        apply List.filter_eq_self.mpr
        intro s hs
        simpa using hnod s hs
      have hfilcons : ((j, wj) :: rest).filter (fun s => s.1 ≠ j) = rest := by
        rw [List.filter_cons, if_neg (by simp), hfil]
      have hstr : segChars j wj ++ encodeSegs rest
          = ('[' :: digitsOf j ++ [']']) ++ (wj ++ encodeSegs rest) := by
        simp [segChars]
      have hsub : subIdx (segChars j wj ++ encodeSegs rest) ('[' :: digitsOf j ++ [']'])
          = some 0 := by
        rw [hstr]
        exact subIdx_head (leadsList_append_self _ _)
      rw [removeSeg_eq hsub, hfilcons, List.take_zero, List.nil_append]
      have hbody : ∀ x ∈ digitsOf j ++ ']' :: wj, decide (x = '[') = false := by
        intro x hx
        simpa using seg_body_ne_lbracket hwj x hx
      have hdrop1 : (segChars j wj ++ encodeSegs rest).drop 1
          = (digitsOf j ++ ']' :: wj) ++ encodeSegs rest := by
        rw [segChars_eq, List.cons_append, List.drop_one, List.tail_cons]
      rcases rest with _ | ⟨e2, rest2⟩
      · have henc : encodeSegs ([] : List (Nat × List Char)) = [] := rfl
        simp only [henc, List.append_nil] at hdrop1 ⊢
        have hcf : charFrom (segChars j wj) '[' 1 = none := by
          unfold charFrom
          rw [hdrop1, List.findIdx?_eq_none_iff.mpr hbody]
          rfl
        rw [hcf, Option.getD_none, List.drop_length]
      · have hhead : encodeSegs (e2 :: rest2)
            = '[' :: (digitsOf e2.1 ++ ']' :: e2.2 ++ encodeSegs rest2) := by
          rcases e2 with ⟨j2, w2⟩
          rw [encodeSegs_cons, segChars_eq]
          simp
        have hcf : charFrom (segChars j wj ++ encodeSegs (e2 :: rest2)) '[' 1
            = some (1 + (0 + (digitsOf j ++ ']' :: wj).length)) := by
          unfold charFrom
          rw [hdrop1, findIdx?_shift _ hbody _]
          rw [show (encodeSegs (e2 :: rest2)).findIdx? (· = '[') = some 0 from by
            rw [hhead, List.findIdx?_cons, if_pos (by simp)]]
          rfl
        rw [hcf, Option.getD_some]
        have hlen : 1 + (0 + (digitsOf j ++ ']' :: wj).length) = (segChars j wj).length := by
          rw [segChars_eq, List.length_cons]
          omega
        rw [hlen, List.drop_left]
    · have hk' : (k, w) ∈ rest := by
        rcases List.mem_cons.mp hk with he | hr
        · exfalso
          apply hjk
          injection he with h1 h2
          exact h1.symm
        · exact hr
      have hwf' : WFSegs rest := by
        constructor
        · have hn := hwf.1
          simp only [List.map_cons, List.nodup_cons] at hn
          exact hn.2
        · intro s hs
          exact hwf.2 s (List.mem_cons_of_mem _ hs)
      have IH := ih k w hwf' hk'
      obtain ⟨s', hs'⟩ := removeSeg_some_subIdx IH
      rw [removeSeg_eq hs'] at IH
      have hno : ∀ i, i < (segChars j wj).length →
          leadsList ('[' :: digitsOf k ++ [']'])
            ((segChars j wj ++ encodeSegs rest).drop i) = false := by
        intro i hi
        rcases i with _ | i'
        · rw [List.drop_zero]
          by_contra hcon
          rw [Bool.not_eq_false] at hcon
          rw [segChars_eq, List.cons_append] at hcon
          simp only [leadsList, Bool.and_eq_true, decide_eq_true_eq,
            List.append_eq] at hcon
          obtain ⟨h1, h2⟩ := hcon
          rw [List.append_assoc, List.cons_append] at h2
          exact hjk (digitsOf_inj (digit_tag_leads _ _ _ (digitsOf_digits k)
            (digitsOf_digits j) h2)).symm
        · rw [List.drop_append_eq_append_drop]
          have hi0 : i' + 1 - (segChars j wj).length = 0 := by omega
          rw [hi0, List.drop_zero, segChars_eq, List.drop_succ_cons]
          have hbl : i' < (digitsOf j ++ ']' :: wj).length := by
            rw [segChars_eq, List.length_cons] at hi
            omega
          rw [List.drop_eq_getElem_cons hbl, List.cons_append]
          exact leadsList_cons_ne
            (Ne.symm (seg_body_ne_lbracket hwj _ (List.getElem_mem hbl)))
      have hshift2 : subIdx (segChars j wj ++ encodeSegs rest)
          ('[' :: digitsOf k ++ [']']) = some (s' + (segChars j wj).length) := by
        rw [subIdx_append_shift _ _ _ hno, hs']
        rfl
      rw [removeSeg_eq hshift2]
      have harith : s' + (segChars j wj).length + 1
          = (segChars j wj).length + (s' + 1) := by omega
      have hcf2 : charFrom (segChars j wj ++ encodeSegs rest) '['
          (s' + (segChars j wj).length + 1)
          = (charFrom (encodeSegs rest) '[' (s' + 1)).map (· + (segChars j wj).length) := by
        rw [harith]
        exact charFrom_append _ _ _ _
      rw [hcf2]
      have htake : (segChars j wj ++ encodeSegs rest).take (s' + (segChars j wj).length)
          = segChars j wj ++ (encodeSegs rest).take s' := by
        rw [Nat.add_comm, List.take_append]
      rw [htake]
      have hfc : ((j, wj) :: rest).filter (fun s => s.1 ≠ k)
          = (j, wj) :: rest.filter (fun s => s.1 ≠ k) := by
        rw [List.filter_cons, if_pos (by simpa using hjk)]
      rw [hfc, encodeSegs_cons]
      rcases hce : charFrom (encodeSegs rest) '[' (s' + 1) with _ | e'
      · rw [hce, Option.getD_none, List.drop_length, List.append_nil] at IH
        injection IH with hIH
        rw [Option.map_none', Option.getD_none]
        have hlenstream : (segChars j wj ++ encodeSegs rest).length
            = (segChars j wj).length + (encodeSegs rest).length := List.length_append _ _
        rw [hlenstream, List.drop_append, List.drop_length, List.append_nil, hIH]
      · rw [hce, Option.getD_some] at IH
        injection IH with hIH
        rw [Option.map_some', Option.getD_some, Nat.add_comm e' (segChars j wj).length,
          List.drop_append, List.append_assoc, hIH]

theorem matchAt_tag {toks : List RTok} {s : List Char} {n : Nat} {txt : List Char}
    (h : matchAt toks s = some (n, txt)) :
    ∃ ds rest, s = '[' :: (ds ++ ']' :: rest) ∧ (∀ c ∈ ds, c.isDigit = true) ∧
      n = dsToNat ds := by
  rcases s with _ | ⟨c, s1⟩
  · exact Option.noConfusion h
  simp only [matchAt] at h
  by_cases hc : c = '['
  · rw [if_pos hc] at h
    subst hc
    rcases hp : parseDigits s1 with _ | ⟨ds, s2⟩
    · rw [hp] at h
      exact Option.noConfusion h
    simp only [hp] at h
    obtain ⟨hsplit, -, hdig⟩ := parseDigits_spec s1 ds s2 hp
    split at h
    · exact Option.noConfusion h
    rename_i c2 s3
    split at h
    · rename_i hc2
      subst hc2
      rcases hm : matchToks (toks ++ [RTok.tag]) s3 with _ | ⟨body, rem⟩
      · rw [hm] at h
        exact Option.noConfusion h
      · rw [hm] at h
        injection h with h1
        injection h1 with hn htxt
        exact ⟨ds, s3, by rw [hsplit], hdig, hn.symm⟩
    · exact Option.noConfusion h
  · rw [if_neg hc] at h
    exact Option.noConfusion h

theorem reSearch_tag : ∀ (toks : List RTok) (s : List Char) (n : Nat) (txt : List Char),
    reSearch toks s = some (n, txt) →
    ∃ i ds rest, s.drop i = '[' :: (ds ++ ']' :: rest) ∧
      (∀ c ∈ ds, c.isDigit = true) ∧ n = dsToNat ds := by
  intro toks s
  induction s with
  | nil =>
    intro n txt h
    unfold reSearch at h
    obtain ⟨ds, rest, hs, hds, hn⟩ := matchAt_tag h
    exact ⟨0, ds, rest, by rw [List.drop_zero]; exact hs, hds, hn⟩
  | cons c t ih =>
    intro n txt h
    unfold reSearch at h
    rcases hm : matchAt toks (c :: t) with _ | r
    · rw [hm] at h
      obtain ⟨i, ds, rest, hds, hdig, hn⟩ := ih n txt h
      exact ⟨i + 1, ds, rest, by rw [List.drop_succ_cons]; exact hds, hdig, hn⟩
    · rw [hm] at h
      injection h with hr
      subst hr
      obtain ⟨ds, rest, hs, hds, hn⟩ := matchAt_tag hm
      exact ⟨0, ds, rest, by rw [List.drop_zero]; exact hs, hds, hn⟩

/-- **C7.**  Removing a word's `[index]WORD` segment from the encoded
dictionary stream (the `refresh_structures` splice, `domain.py` lines
431–436) leaves exactly the other segments, with their original index
tags and relative order preserved; and on the resulting stream no
`find_matches` query — for any strip and minimum size — can ever return
the removed word's index again. -/
theorem C7_remove_then_never_match
    (segs : List (Nat × List Char)) (k : Nat) (w : List Char)
    (hwf : WFSegs segs) (hk : (k, w) ∈ segs) :
    removeSeg (encodeSegs segs) k
      = some (encodeSegs (segs.filter (fun s => s.1 ≠ k)))
    ∧ ∀ (min_size : Nat) (letter_seq : List Char) (n : Nat) (txt : List Char),
        findMatchesSeq (encodeSegs (segs.filter (fun s => s.1 ≠ k)))
            min_size letter_seq = .ok (some (n, txt)) →
        n ≠ k := by
  constructor
  · exact removeSeg_encode segs k w hwf hk
  · intro ms seq n txt hfm
    unfold findMatchesSeq at hfm
    rcases hg : gen_patterns seq 0 ms with _ | pats
    · rw [hg] at hfm
      exact Except.noConfusion hfm
    · rw [hg] at hfm
      injection hfm with hfm
      obtain ⟨gp, hgp, hsearch⟩ := List.exists_of_findSome?_eq_some hfm
      obtain ⟨i, ds, rest, hdrop, hds, hn⟩ := reSearch_tag _ _ _ _ hsearch
      have halpha : ∀ s ∈ segs.filter (fun s => s.1 ≠ k), ∀ c ∈ s.2,
          c.isAlpha = true := by
        intro s hs
        exact hwf.2 s (List.mem_of_mem_filter hs)
      obtain ⟨e, he, hdse⟩ := tag_occurrence _ halpha i ds rest hdrop hds
      have hek : e.1 ≠ k := by
        have hf := (List.mem_filter.mp he).2
        simpa using hf
      refine fun hnk => hek ?_
      rw [hn, hdse, dsToNat_digitsOf] at hnk
      exact hnk

/-- Concrete instantiation of `C7_remove_then_never_match`: a
three-word dictionary `[0]AB[1]CD[2]EF`, removing word `1`. -/
theorem C7_remove_then_never_match_witness :
    removeSeg (encodeSegs [(0, "AB".data), (1, "CD".data), (2, "EF".data)]) 1
      = some (encodeSegs ([(0, "AB".data), (1, "CD".data), (2, "EF".data)].filter
          (fun s => s.1 ≠ 1))) :=
  (C7_remove_then_never_match
    [(0, "AB".data), (1, "CD".data), (2, "EF".data)] 1 "CD".data
    (by decide) (by decide)).1

end Wordlai
